import Mathlib

/-!
Verification of the balance and settlement core of the cuantopongo
expense-splitting application (src/app/page.tsx).

The embedding follows the source closely:

* monetary values (JavaScript numbers) are embedded as exact rationals;
  decimal literals of the source such as 0.005 become the corresponding
  rationals (1/200);
* the record Record(string, number) holding the balances is embedded as an
  association list read and written through its first matching key, which
  matches the unique-key records the program builds;
* the while loop of the settlements memo is embedded with an explicit fuel
  argument so that it is structurally recursive; the lemma matchF_irrel
  shows that the result is independent of the fuel once the fuel is at
  least the combined length of the two work lists, so the fuel is an
  artifact of the embedding and not a semantic change;
* Array.prototype.sort with comparator (a, b) => b.amount - a.amount is a
  stable descending sort by amount; it is embedded as a stable descending
  insertion sort.
-/

set_option maxHeartbeats 1000000

namespace SplitGastos

/-- Participant record (type Person in src/app/page.tsx). -/
structure Person where
  id : String
  nombre : String
deriving DecidableEq

/-- Expense record (type Expense in src/app/page.tsx). -/
structure Expense where
  id : String
  descripcion : String
  monto : ℚ
  pagadorId : String
  participantes : List String
  fecha : String
deriving DecidableEq

/-- Application state (the two lists the core functions consume). -/
structure AppState where
  personas : List Person
  gastos : List Expense
  moneda : String
deriving DecidableEq

/-- The balance record of the source (Record(string, number)) embedded as an
association list; lookups and assignments act on the first matching key. -/
abbrev BalanceMap := List (String × ℚ)

/-- Lookup of a key, reading the first matching binding. -/
def lookupB : BalanceMap → String → Option ℚ
  | [], _ => none
  | e :: b, k => if e.1 = k then some e.2 else lookupB b k

/-- The source reads balances with the pattern b[pid] ?? 0. -/
def getD (b : BalanceMap) (k : String) : ℚ :=
  (lookupB b k).getD 0

/-- Record assignment b[k] = v: replace the first binding of k, or append. -/
def setB : BalanceMap → String → ℚ → BalanceMap
  | [], k, v => [(k, v)]
  | e :: b, k, v => if e.1 = k then (k, v) :: b else e :: setB b k v

/-- The source pattern b[k] = (b[k] ?? 0) + d. -/
def updB (b : BalanceMap) (k : String) (d : ℚ) : BalanceMap :=
  setB b k (getD b k + d)

/-- Keys of the record, in insertion order. -/
def keysB (b : BalanceMap) : List String := b.map Prod.fst

/-- Sum of all values of the record, over every key. -/
def sumB (b : BalanceMap) : ℚ := (b.map Prod.snd).sum

/-- The equal share of an expense (page.tsx line 123). -/
def share (g : Expense) : ℚ := g.monto / (g.participantes.length : ℚ)

/-- One iteration of the expense loop of the balances memo
(page.tsx lines 121 to 135). -/
def applyGasto (b : BalanceMap) (g : Expense) : BalanceMap :=
  if g.monto ≤ 0 ∨ g.participantes.length = 0 then b
  else
    let b1 := g.participantes.foldl
      (fun acc pid =>
        if pid = g.pagadorId then updB acc pid (g.monto - share g)
        else updB acc pid (-share g)) b
    if g.pagadorId ∈ g.participantes then b1
    else updB b1 g.pagadorId g.monto

/-- Initialization state.personas.forEach p => b[p.id] = 0
(page.tsx line 119). -/
def initB (personas : List Person) : BalanceMap :=
  personas.foldl (fun acc p => setB acc p.id 0) []

/-- The balances memo (page.tsx lines 117 to 137). -/
def balances (personas : List Person) (gastos : List Expense) : BalanceMap :=
  gastos.foldl applyGasto (initB personas)

/-- Working entry of the settlements memo (type Entry in the source). -/
structure Entry where
  id : String
  amount : ℚ
deriving DecidableEq

/-- Settlement transfer (the moves records of the source). -/
structure Move where
  fromId : String
  toId : String
  amount : ℚ
deriving DecidableEq

/-- The tolerance band 0.005 of the settlements memo. -/
def tol : ℚ := 1 / 200

/-- The debtor list built on page.tsx lines 144 to 148. -/
def debtorsOf (b : BalanceMap) : List Entry :=
  (b.filter (fun e => decide (e.2 < -tol))).map (fun e => ⟨e.1, -e.2⟩)

/-- The creditor list built on page.tsx lines 144 to 148. -/
def creditorsOf (b : BalanceMap) : List Entry :=
  (b.filter (fun e => decide (tol < e.2))).map (fun e => ⟨e.1, e.2⟩)

/-- Placement of one entry into a descending list, after all entries of at
least its amount: one step of the stable descending sort of the source
(comparator (a, b) => b.amount - a.amount on page.tsx lines 150 to 151). -/
def insertDesc (e : Entry) : List Entry → List Entry
  | [] => [e]
  | x :: xs => if x.amount ≤ e.amount then e :: x :: xs else x :: insertDesc e xs

/-- Stable descending sort by amount. -/
def sortDesc (l : List Entry) : List Entry := l.foldr insertDesc []

/-- The while loop of the settlements memo (page.tsx lines 156 to 165),
with an explicit fuel argument for structural recursion; matchF_irrel
shows the fuel does not matter once it covers the combined length. -/
def matchF : Nat → List Entry → List Entry → List Move
  | 0, _, _ => []
  | _ + 1, [], _ => []
  | _ + 1, _ :: _, [] => []
  | fuel + 1, d :: ds, c :: cs =>
    ⟨d.id, c.id, min d.amount c.amount⟩ ::
      matchF fuel
        (if d.amount - min d.amount c.amount ≤ tol then ds
         else ⟨d.id, d.amount - min d.amount c.amount⟩ :: ds)
        (if c.amount - min d.amount c.amount ≤ tol then cs
         else ⟨c.id, c.amount - min d.amount c.amount⟩ :: cs)

/-- The settlement matching loop on the two sorted work lists. -/
def matchLoop (ds cs : List Entry) : List Move :=
  matchF (ds.length + cs.length) ds cs

/-- The settlements memo (page.tsx lines 140 to 167). -/
def settlements (b : BalanceMap) : List Move :=
  matchLoop (sortDesc (debtorsOf b)) (sortDesc (creditorsOf b))

/-- The cascade performed when a participant is deleted
(removePersona, page.tsx lines 187 to 200); only the state update on the
canonical lists is modelled, the form-state resets are UI concerns. -/
def removePersona (pid : String) (s : AppState) : AppState :=
  { s with
    personas := s.personas.filter (fun p => decide (p.id ≠ pid)),
    gastos :=
      (s.gastos.map
        (fun g => { g with
          participantes := g.participantes.filter (fun q => decide (q ≠ pid)) })).filter
        (fun g => decide (g.pagadorId ≠ pid)) }

/-- Sum of the amounts of a list of transfers. -/
def sumMoves (ms : List Move) : ℚ := (ms.map Move.amount).sum

/-- Total amount a participant pays across a list of transfers. -/
def paidBy (ms : List Move) (p : String) : ℚ :=
  ((ms.filter (fun m => decide (m.fromId = p))).map Move.amount).sum

/-- Total amount a participant receives across a list of transfers. -/
def paidTo (ms : List Move) (p : String) : ℚ :=
  ((ms.filter (fun m => decide (m.toId = p))).map Move.amount).sum

/-- Sum of the amounts of a work list. -/
def amtSum (l : List Entry) : ℚ := (l.map Entry.amount).sum

/-- Application of one settlement transfer to a balance map: the debtor has
paid, so the transferred amount leaves their debit and leaves the
creditor's credit. -/
def applyMove (b : BalanceMap) (m : Move) : BalanceMap :=
  updB (updB b m.fromId m.amount) m.toId (-m.amount)

/-- Application of a whole transfer list to a balance map. -/
def applyMoves (b : BalanceMap) (ms : List Move) : BalanceMap :=
  ms.foldl applyMove b

/-- Sum of the positive values of a balance map. -/
def posSum (b : BalanceMap) : ℚ :=
  ((b.filter (fun e => decide (0 < e.2))).map Prod.snd).sum

/-- Sum of the absolute values of the negative values of a balance map. -/
def negSum (b : BalanceMap) : ℚ :=
  -((b.filter (fun e => decide (e.2 < 0))).map Prod.snd).sum

/-! Basic lemmas about the record embedding. -/

theorem getD_nil (k : String) : getD [] k = 0 := rfl

theorem getD_cons (e : String × ℚ) (b : BalanceMap) (k : String) :
    getD (e :: b) k = if e.1 = k then e.2 else getD b k := by
  by_cases h : e.1 = k <;> simp [getD, lookupB, h]

theorem sumB_cons (e : String × ℚ) (b : BalanceMap) :
    sumB (e :: b) = e.2 + sumB b := by
  simp [sumB]

theorem keysB_cons (e : String × ℚ) (b : BalanceMap) :
    keysB (e :: b) = e.1 :: keysB b := rfl

theorem getD_setB (b : BalanceMap) (k : String) (v : ℚ) (k2 : String) :
    getD (setB b k v) k2 = if k2 = k then v else getD b k2 := by
  induction b with
  | nil =>
    simp only [setB]
    rw [getD_cons]
    by_cases h : k2 = k
    · subst h
      simp
    · simp [h, Ne.symm h]
  | cons e b ih =>
    by_cases he : e.1 = k
    · simp only [setB, if_pos he]
      rw [getD_cons, getD_cons]
      by_cases h : k2 = k
      · subst h
        simp [he]
      · have h2 : ¬ e.1 = k2 := by
          rw [he]
          exact Ne.symm h
        simp [h, Ne.symm h, h2]
    · simp only [setB, if_neg he]
      rw [getD_cons, getD_cons, ih]
      by_cases h2 : e.1 = k2
      · have hk2 : ¬ k2 = k := fun hq => he (h2.trans hq)
        simp [h2, hk2]
      · simp [h2]

theorem getD_updB (b : BalanceMap) (k : String) (d : ℚ) (k2 : String) :
    getD (updB b k d) k2 = getD b k2 + if k2 = k then d else 0 := by
  unfold updB
  rw [getD_setB]
  by_cases h : k2 = k
  · subst h
    simp
  · simp [h]

theorem sumB_setB (b : BalanceMap) (k : String) (v : ℚ) :
    sumB (setB b k v) = sumB b + v - getD b k := by
  induction b with
  | nil =>
    simp [setB, sumB, getD, lookupB]
  | cons e b ih =>
    by_cases he : e.1 = k
    · simp only [setB, if_pos he, sumB_cons, getD_cons, if_pos he]
      ring
    · simp only [setB, if_neg he, sumB_cons, getD_cons, if_neg he, ih]
      ring

theorem sumB_updB (b : BalanceMap) (k : String) (d : ℚ) :
    sumB (updB b k d) = sumB b + d := by
  unfold updB
  rw [sumB_setB]
  ring

theorem keysB_setB (b : BalanceMap) (k : String) (v : ℚ) :
    keysB (setB b k v) = if k ∈ keysB b then keysB b else keysB b ++ [k] := by
  induction b with
  | nil => simp [setB, keysB]
  | cons e b ih =>
    by_cases he : e.1 = k
    · simp [setB, he, keysB_cons]
    · have hne : ¬ k = e.1 := fun h => he h.symm
      simp only [setB, if_neg he, keysB_cons, ih, List.mem_cons]
      by_cases hm : k ∈ keysB b
      · simp [hm]
      · simp [hm, hne]

theorem mem_keysB_setB (b : BalanceMap) (k : String) (v : ℚ) :
    k ∈ keysB (setB b k v) := by
  rw [keysB_setB]
  by_cases hm : k ∈ keysB b <;> simp [hm]

theorem mem_keysB_setB_of_mem (b : BalanceMap) (k k2 : String) (v : ℚ)
    (h : k2 ∈ keysB b) : k2 ∈ keysB (setB b k v) := by
  rw [keysB_setB]
  by_cases hm : k ∈ keysB b <;> simp [hm, h]

theorem keysB_updB_of_mem (b : BalanceMap) (k : String) (d : ℚ)
    (h : k ∈ keysB b) : keysB (updB b k d) = keysB b := by
  unfold updB
  rw [keysB_setB, if_pos h]

theorem lookupB_eq_some (b : BalanceMap) (k : String) (h : k ∈ keysB b) :
    lookupB b k = some (getD b k) := by
  induction b with
  | nil => simp [keysB] at h
  | cons e b ih =>
    by_cases he : e.1 = k
    · simp [lookupB, getD, he]
    · simp only [keysB_cons, List.mem_cons] at h
      rcases h with h | h
      · exact absurd h.symm he
      · simp only [lookupB, getD, if_neg he]
        exact ih h

theorem lookupB_eq_none (b : BalanceMap) (k : String) (h : k ∉ keysB b) :
    lookupB b k = none := by
  induction b with
  | nil => rfl
  | cons e b ih =>
    simp only [keysB_cons, List.mem_cons, not_or] at h
    show (if e.1 = k then some e.2 else lookupB b k) = none
    rw [if_neg (Ne.symm h.1)]
    exact ih h.2

theorem getD_eq_of_mem (b : BalanceMap) (k : String) (v : ℚ)
    (hnd : (keysB b).Nodup) (hm : (k, v) ∈ b) : getD b k = v := by
  induction b with
  | nil => simp at hm
  | cons e b ih =>
    rw [keysB_cons, List.nodup_cons] at hnd
    rcases List.mem_cons.1 hm with h | h
    · rw [← h, getD_cons]
      simp
    · have hne : ¬ e.1 = k := by
        intro hq
        exact hnd.1 (hq ▸ (List.mem_map.2 ⟨(k, v), h, rfl⟩))
      rw [getD_cons, if_neg hne]
      exact ih hnd.2 h

theorem mem_of_mem_keysB (b : BalanceMap) (k : String) (h : k ∈ keysB b) :
    (k, getD b k) ∈ b := by
  induction b with
  | nil => simp [keysB] at h
  | cons e b ih =>
    by_cases he : e.1 = k
    · rw [getD_cons, if_pos he, ← he]
      simp
    · simp only [keysB_cons, List.mem_cons] at h
      rcases h with h | h
      · exact absurd h.symm he
      · rw [getD_cons, if_neg he]
        exact List.mem_cons_of_mem _ (ih h)

theorem mem_setB (b : BalanceMap) (k : String) (v : ℚ) (e : String × ℚ)
    (h : e ∈ setB b k v) : e ∈ b ∨ e = (k, v) := by
  induction b with
  | nil =>
    simp only [setB, List.mem_cons, List.not_mem_nil, or_false] at h
    right
    exact h
  | cons x b ih =>
    by_cases hx : x.1 = k
    · simp only [setB, if_pos hx, List.mem_cons] at h
      rcases h with h | h
      · right; exact h
      · left; exact List.mem_cons_of_mem _ h
    · simp only [setB, if_neg hx, List.mem_cons] at h
      rcases h with h | h
      · left
        rw [h]
        exact List.mem_cons_self _ _
      · rcases ih h with h2 | h2
        · left; exact List.mem_cons_of_mem _ h2
        · right; exact h2

theorem mem_keysB_updB (b : BalanceMap) (k : String) (d : ℚ) :
    k ∈ keysB (updB b k d) :=
  mem_keysB_setB b k _

theorem mem_keysB_updB_of_mem (b : BalanceMap) (k k2 : String) (d : ℚ)
    (h : k2 ∈ keysB b) : k2 ∈ keysB (updB b k d) :=
  mem_keysB_setB_of_mem b k k2 _ h

/-! Sum helpers. -/

theorem sum_map_add {α : Type} (l : List α) (f g : α → ℚ) :
    (l.map fun x => f x + g x).sum = (l.map f).sum + (l.map g).sum := by
  induction l with
  | nil => simp
  | cons a l ih =>
    simp only [List.map_cons, List.sum_cons, ih]
    ring

theorem sum_map_count (l : List String) (a : String) (c : ℚ) :
    (l.map fun x => if x = a then c else 0).sum = (l.count a : ℚ) * c := by
  induction l with
  | nil => simp
  | cons x l ih =>
    by_cases h : x = a
    · subst h
      simp only [List.map_cons, List.sum_cons, if_pos rfl, ih, List.count_cons_self]
      push_cast
      ring
    · have : l.count a = (x :: l).count a := (List.count_cons_of_ne (Ne.symm h) l).symm
      simp only [List.map_cons, List.sum_cons, if_neg h, ih, ← this]
      ring

/-! The participant fold inside the balances memo. -/

/-- The per-participant change applied by one expense. -/
def delta (g : Expense) (pid : String) : ℚ :=
  if pid = g.pagadorId then g.monto - share g else -share g

theorem foldl_updB_getD (f : String → ℚ) (ps : List String) :
    ∀ (b : BalanceMap) (k : String), ps.Nodup →
      getD (ps.foldl (fun acc pid => updB acc pid (f pid)) b) k =
        getD b k + (if k ∈ ps then f k else 0) := by
  induction ps with
  | nil =>
    intro b k _
    simp
  | cons p ps ih =>
    intro b k hnd
    rw [List.nodup_cons] at hnd
    simp only [List.foldl_cons]
    rw [ih _ k hnd.2, getD_updB]
    by_cases hk : k = p
    · subst hk
      simp [hnd.1]
    · simp [hk, List.mem_cons]

theorem foldl_updB_sumB (f : String → ℚ) (ps : List String) :
    ∀ b : BalanceMap,
      sumB (ps.foldl (fun acc pid => updB acc pid (f pid)) b) =
        sumB b + (ps.map f).sum := by
  induction ps with
  | nil =>
    intro b
    simp
  | cons p ps ih =>
    intro b
    simp only [List.foldl_cons, ih, sumB_updB, List.map_cons, List.sum_cons]
    ring

theorem foldl_updB_keys (f : String → ℚ) (ps : List String) :
    ∀ (b : BalanceMap) (k : String), (k ∈ keysB b ∨ k ∈ ps) →
      k ∈ keysB (ps.foldl (fun acc pid => updB acc pid (f pid)) b) := by
  induction ps with
  | nil =>
    intro b k h
    rcases h with h | h
    · exact h
    · simp at h
  | cons p ps ih =>
    intro b k h
    simp only [List.foldl_cons]
    apply ih
    rcases h with h | h
    · left
      exact mem_keysB_updB_of_mem _ _ _ _ h
    · rcases List.mem_cons.1 h with h | h
      · left
        rw [h]
        exact mem_keysB_updB _ _ _
      · right
        exact h

theorem applyGasto_step (g : Expense) (ps : List String) :
    ∀ b : BalanceMap,
      ps.foldl
        (fun acc pid =>
          if pid = g.pagadorId then updB acc pid (g.monto - share g)
          else updB acc pid (-share g)) b =
      ps.foldl (fun acc pid => updB acc pid (delta g pid)) b := by
  induction ps with
  | nil =>
    intro b
    rfl
  | cons p ps ih =>
    intro b
    simp only [List.foldl_cons]
    rw [← ih]
    congr 1
    by_cases h : p = g.pagadorId <;> simp [delta, h]

theorem applyGasto_not_skipped (g : Expense) (hm : 0 < g.monto)
    (hne : g.participantes ≠ []) :
    ¬ (g.monto ≤ 0 ∨ g.participantes.length = 0) := by
  push_neg
  constructor
  · exact hm
  · simpa using hne

theorem applyGasto_getD (b : BalanceMap) (g : Expense) (hm : 0 < g.monto)
    (hne : g.participantes ≠ []) (hnd : g.participantes.Nodup) (k : String) :
    getD (applyGasto b g) k =
      getD b k + (if k ∈ g.participantes then delta g k else 0) +
        (if g.pagadorId ∈ g.participantes then 0
         else if k = g.pagadorId then g.monto else 0) := by
  unfold applyGasto
  rw [if_neg (applyGasto_not_skipped g hm hne)]
  by_cases hp : g.pagadorId ∈ g.participantes
  · simp only [if_pos hp, applyGasto_step]
    rw [foldl_updB_getD _ _ _ _ hnd]
    simp [delta]
  · simp only [if_neg hp, applyGasto_step]
    rw [getD_updB, foldl_updB_getD _ _ _ _ hnd]

theorem sum_map_const {α : Type} (l : List α) (c : ℚ) :
    (l.map fun _ => c).sum = (l.length : ℚ) * c := by
  induction l with
  | nil => simp
  | cons a l ih =>
    simp only [List.map_cons, List.sum_cons, ih, List.length_cons]
    push_cast
    ring

theorem share_mul_length (g : Expense) (hlen : g.participantes.length ≠ 0) :
    (g.participantes.length : ℚ) * share g = g.monto := by
  have hn : (g.participantes.length : ℚ) ≠ 0 := by exact_mod_cast hlen
  unfold share
  rw [mul_comm, div_mul_cancel₀ _ hn]

theorem delta_sum (g : Expense) (hlen : g.participantes.length ≠ 0) :
    (g.participantes.map (delta g)).sum =
      (g.participantes.count g.pagadorId : ℚ) * g.monto - g.monto := by
  have heq : g.participantes.map (delta g) =
      g.participantes.map
        (fun pid => (if pid = g.pagadorId then g.monto else 0) + (-share g)) := by
    apply List.map_congr_left
    intro pid _
    by_cases h : pid = g.pagadorId
    · simp [delta, h]
      ring
    · simp [delta, h]
  rw [heq, sum_map_add, sum_map_count, sum_map_const]
  have : (g.participantes.length : ℚ) * (-share g) = -g.monto := by
    rw [mul_neg, share_mul_length g hlen]
  rw [this]
  ring

theorem sumB_applyGasto (b : BalanceMap) (g : Expense)
    (hnd : g.participantes.Nodup) : sumB (applyGasto b g) = sumB b := by
  unfold applyGasto
  by_cases hskip : g.monto ≤ 0 ∨ g.participantes.length = 0
  · rw [if_pos hskip]
  · rw [if_neg hskip]
    push_neg at hskip
    obtain ⟨hm, hlen⟩ := hskip
    by_cases hp : g.pagadorId ∈ g.participantes
    · simp only [if_pos hp, applyGasto_step]
      rw [foldl_updB_sumB, delta_sum g hlen, List.count_eq_one_of_mem hnd hp]
      push_cast
      ring
    · simp only [if_neg hp, applyGasto_step]
      rw [sumB_updB, foldl_updB_sumB, delta_sum g hlen,
        List.count_eq_zero_of_not_mem hp]
      push_cast
      ring

theorem foldl_setB_zero_values (ps : List Person) :
    ∀ acc : BalanceMap, (∀ e ∈ acc, e.2 = 0) →
      ∀ e ∈ ps.foldl (fun acc p => setB acc p.id 0) acc, e.2 = 0 := by
  induction ps with
  | nil =>
    intro acc h
    exact h
  | cons p ps ih =>
    intro acc h
    simp only [List.foldl_cons]
    apply ih
    intro e he
    rcases mem_setB _ _ _ _ he with h2 | h2
    · exact h _ h2
    · rw [h2]

theorem initB_values (personas : List Person) :
    ∀ e ∈ initB personas, e.2 = 0 :=
  foldl_setB_zero_values personas [] (by simp)

theorem sumB_eq_zero_of_values (b : BalanceMap) (h : ∀ e ∈ b, e.2 = 0) :
    sumB b = 0 := by
  induction b with
  | nil => rfl
  | cons e b ih =>
    rw [sumB_cons, h e (List.mem_cons_self e b),
      ih (fun x hx => h x (List.mem_cons_of_mem _ hx))]
    ring

theorem getD_eq_zero_of_values (b : BalanceMap) (h : ∀ e ∈ b, e.2 = 0)
    (k : String) : getD b k = 0 := by
  induction b with
  | nil => rfl
  | cons e b ih =>
    rw [getD_cons]
    by_cases he : e.1 = k
    · rw [if_pos he]
      exact h e (List.mem_cons_self e b)
    · rw [if_neg he]
      exact ih (fun x hx => h x (List.mem_cons_of_mem _ hx))

theorem sumB_initB (personas : List Person) : sumB (initB personas) = 0 :=
  sumB_eq_zero_of_values _ (initB_values personas)

theorem getD_initB (personas : List Person) (k : String) :
    getD (initB personas) k = 0 :=
  getD_eq_zero_of_values _ (initB_values personas) k

theorem keysB_foldl_setB (ps : List Person) :
    ∀ (acc : BalanceMap) (k : String),
      k ∈ keysB (ps.foldl (fun acc p => setB acc p.id 0) acc) ↔
        k ∈ keysB acc ∨ k ∈ ps.map Person.id := by
  induction ps with
  | nil =>
    intro acc k
    simp
  | cons p ps ih =>
    intro acc k
    simp only [List.foldl_cons, ih, List.map_cons, List.mem_cons]
    rw [keysB_setB]
    by_cases hm2 : p.id ∈ keysB acc
    · rw [if_pos hm2]
      constructor
      · rintro (h | h)
        · exact Or.inl h
        · exact Or.inr (Or.inr h)
      · rintro (h | h | h)
        · exact Or.inl h
        · exact Or.inl (h ▸ hm2)
        · exact Or.inr h
    · rw [if_neg hm2]
      simp only [List.mem_append, List.mem_singleton]
      tauto

theorem keysB_initB (personas : List Person) (k : String) :
    k ∈ keysB (initB personas) ↔ k ∈ personas.map Person.id := by
  unfold initB
  rw [keysB_foldl_setB]
  simp [keysB]

theorem applyGasto_keys_mem (b : BalanceMap) (g : Expense) (hm : 0 < g.monto)
    (hne : g.participantes ≠ []) (k : String)
    (hk : k ∈ g.participantes ∨ k ∈ keysB b ∨ k = g.pagadorId) :
    k ∈ keysB (applyGasto b g) := by
  unfold applyGasto
  rw [if_neg (applyGasto_not_skipped g hm hne)]
  by_cases hp : g.pagadorId ∈ g.participantes
  · simp only [if_pos hp, applyGasto_step]
    apply foldl_updB_keys
    rcases hk with h | h | h
    · exact Or.inr h
    · exact Or.inl h
    · exact Or.inr (h ▸ hp)
  · simp only [if_neg hp, applyGasto_step]
    rcases hk with h | h | h
    · exact mem_keysB_updB_of_mem _ _ _ _ (foldl_updB_keys _ _ _ _ (Or.inr h))
    · exact mem_keysB_updB_of_mem _ _ _ _ (foldl_updB_keys _ _ _ _ (Or.inl h))
    · rw [h]
      exact mem_keysB_updB _ _ _

/-- C1. For an expense with positive amount and a non-empty participant set,
the balance computation credits the payer amount minus share when the payer
is listed, debits every other listed participant the share, and credits the
payer the full amount when the payer is not listed. -/
theorem applyGasto_splits_equally (b : BalanceMap) (g : Expense)
    (hm : 0 < g.monto) (hne : g.participantes ≠ [])
    (hnd : g.participantes.Nodup) :
    (∀ p ∈ g.participantes, p ≠ g.pagadorId →
        getD (applyGasto b g) p = getD b p - share g) ∧
    (g.pagadorId ∈ g.participantes →
        getD (applyGasto b g) g.pagadorId =
          getD b g.pagadorId + (g.monto - share g)) ∧
    (g.pagadorId ∉ g.participantes →
        getD (applyGasto b g) g.pagadorId = getD b g.pagadorId + g.monto) := by
  refine ⟨?_, ?_, ?_⟩
  · intro p hp hne2
    rw [applyGasto_getD b g hm hne hnd p, if_pos hp]
    have hd : delta g p = -share g := by simp [delta, hne2]
    rw [hd]
    by_cases hpay : g.pagadorId ∈ g.participantes
    · rw [if_pos hpay]
      ring
    · rw [if_neg hpay, if_neg hne2]
      ring
  · intro hp
    rw [applyGasto_getD b g hm hne hnd _, if_pos hp, if_pos hp]
    have hd : delta g g.pagadorId = g.monto - share g := by simp [delta]
    rw [hd]
    ring
  · intro hp
    rw [applyGasto_getD b g hm hne hnd _, if_neg hp, if_neg hp, if_pos rfl]
    ring

def gEx30 : Expense :=
  { id := "e1", descripcion := "cena", monto := 30, pagadorId := "T",
    participantes := ["A", "B"], fecha := "2026-01-01" }

/-- Witness for C1: amount 30, payer T, participants A and B, payer
excluded: T gains 30, A and B each lose 15. -/
theorem applyGasto_splits_equally_witness :
    getD (applyGasto [] gEx30) "T" = 30 ∧
    getD (applyGasto [] gEx30) "A" = -15 ∧
    getD (applyGasto [] gEx30) "B" = -15 := by
  have h := applyGasto_splits_equally [] gEx30 (by norm_num [gEx30])
    (by simp [gEx30]) (by simp [gEx30])
  refine ⟨?_, ?_, ?_⟩
  · have h3 := h.2.2 (by simp [gEx30])
    refine h3.trans ?_
    norm_num [gEx30, getD, lookupB]
  · have h1 := h.1 "A" (by simp [gEx30]) (by simp [gEx30])
    refine h1.trans ?_
    norm_num [gEx30, getD, lookupB, share]
  · have h1 := h.1 "B" (by simp [gEx30]) (by simp [gEx30])
    refine h1.trans ?_
    norm_num [gEx30, getD, lookupB, share]

/-- C2. The values of the balance map produced from any participant list and
any expense list (participant sets embedded as duplicate-free lists) sum to
exactly zero. -/
theorem balances_zero_sum (personas : List Person) (gastos : List Expense)
    (h : ∀ g ∈ gastos, g.participantes.Nodup) :
    sumB (balances personas gastos) = 0 := by
  unfold balances
  have main : ∀ (gs : List Expense) (acc : BalanceMap),
      (∀ g ∈ gs, g.participantes.Nodup) → sumB acc = 0 →
      sumB (gs.foldl applyGasto acc) = 0 := by
    intro gs
    induction gs with
    | nil =>
      intro acc _ h0
      exact h0
    | cons g gs ih =>
      intro acc hh h0
      simp only [List.foldl_cons]
      refine ih _ (fun x hx => hh x (List.mem_cons_of_mem _ hx)) ?_
      rw [sumB_applyGasto _ _ (hh g (List.mem_cons_self g gs))]
      exact h0
  exact main gastos _ h (sumB_initB personas)

def gsDemo : List Expense :=
  [{ id := "g1", descripcion := "super", monto := 271/5, pagadorId := "a",
     participantes := ["a", "l", "t"], fecha := "2026-01-01" },
   { id := "g2", descripcion := "cafe", monto := 48/5, pagadorId := "l",
     participantes := ["l", "t"], fecha := "2026-01-01" },
   { id := "g3", descripcion := "taxi", monto := 18, pagadorId := "t",
     participantes := ["a", "t"], fecha := "2026-01-01" }]

/-- Witness for C2, on the demo data of the application. -/
theorem balances_zero_sum_witness :
    (∀ g ∈ gsDemo, g.participantes.Nodup) ∧ sumB (balances [] gsDemo) = 0 :=
  ⟨by decide, balances_zero_sum [] gsDemo (by decide)⟩

/-- C5. An expense with non-positive amount or an empty participant set is
silently skipped: the balance map with it present equals the balance map
with it removed. -/
theorem balances_skips_invalid (personas : List Person)
    (pre post : List Expense) (g : Expense)
    (h : g.monto ≤ 0 ∨ g.participantes = []) :
    balances personas (pre ++ g :: post) = balances personas (pre ++ post) := by
  unfold balances
  rw [List.foldl_append, List.foldl_append, List.foldl_cons]
  congr 1
  unfold applyGasto
  rw [if_pos]
  rcases h with h | h
  · exact Or.inl h
  · exact Or.inr (by simp [h])

def gZero : Expense :=
  { id := "z", descripcion := "nada", monto := 0, pagadorId := "a",
    participantes := ["a", "l"], fecha := "2026-01-01" }

/-- Witness for C5: a zero-amount expense in the middle of the demo list
leaves every balance unchanged. -/
theorem balances_skips_invalid_witness :
    (gZero.monto ≤ 0 ∨ gZero.participantes = []) ∧
    balances [] (gsDemo.take 1 ++ gZero :: gsDemo.drop 1) =
      balances [] (gsDemo.take 1 ++ gsDemo.drop 1) :=
  ⟨Or.inl (by norm_num [gZero]),
   balances_skips_invalid [] (gsDemo.take 1) (gsDemo.drop 1) gZero
     (Or.inl (by norm_num [gZero]))⟩

/-- C9. An expense that references ids absent from the participant list does
not make the computation fail: the balance map acquires an entry for the
unknown id, started from zero and updated like any known participant. -/
theorem balances_unknown_id (personas : List Person) (g : Expense)
    (hm : 0 < g.monto) (hnd : g.participantes.Nodup) :
    (∀ pid ∈ g.participantes, pid ∉ personas.map Person.id →
        lookupB (initB personas) pid = none ∧
        lookupB (balances personas [g]) pid =
          some (if pid = g.pagadorId then g.monto - share g else -share g)) ∧
    (g.participantes ≠ [] → g.pagadorId ∉ g.participantes →
        g.pagadorId ∉ personas.map Person.id →
        lookupB (balances personas [g]) g.pagadorId = some g.monto) := by
  have hbal : balances personas [g] = applyGasto (initB personas) g := by
    unfold balances
    simp
  constructor
  · intro pid hpid hnotin
    have hne : g.participantes ≠ [] := List.ne_nil_of_mem hpid
    have hinit : pid ∉ keysB (initB personas) := by
      rw [keysB_initB]
      exact hnotin
    refine ⟨lookupB_eq_none _ _ hinit, ?_⟩
    rw [hbal]
    have hkey : pid ∈ keysB (applyGasto (initB personas) g) :=
      applyGasto_keys_mem _ g hm hne pid (Or.inl hpid)
    rw [lookupB_eq_some _ _ hkey]
    congr 1
    rw [applyGasto_getD _ g hm hne hnd pid, if_pos hpid, getD_initB]
    have hthird : (if g.pagadorId ∈ g.participantes then 0
        else if pid = g.pagadorId then g.monto else 0) = 0 := by
      by_cases hpp : g.pagadorId ∈ g.participantes
      · rw [if_pos hpp]
      · rw [if_neg hpp, if_neg]
        intro hq
        exact hpp (hq ▸ hpid)
    rw [hthird]
    simp [delta]
  · intro hne hp hnotin
    rw [hbal]
    have hkey : g.pagadorId ∈ keysB (applyGasto (initB personas) g) :=
      applyGasto_keys_mem _ g hm hne _ (Or.inr (Or.inr rfl))
    rw [lookupB_eq_some _ _ hkey]
    congr 1
    rw [applyGasto_getD _ g hm hne hnd _, if_neg hp, if_neg hp, if_pos rfl,
      getD_initB]
    ring

def pAna : Person := { id := "ana", nombre := "Ana" }

def gUnknown : Expense :=
  { id := "u", descripcion := "taxi", monto := 30, pagadorId := "T",
    participantes := ["A", "B"], fecha := "2026-01-01" }

/-- Witness for C9: with only Ana registered, an expense paid by unknown T
for unknown A and B creates entries for all three. -/
theorem balances_unknown_id_witness :
    lookupB (balances [pAna] [gUnknown]) "A" = some (-15) ∧
    lookupB (balances [pAna] [gUnknown]) "T" = some 30 := by
  have h := balances_unknown_id [pAna] gUnknown (by norm_num [gUnknown])
    (by simp [gUnknown])
  constructor
  · have h1 := (h.1 "A" (by simp [gUnknown]) (by simp [gUnknown, pAna])).2
    rw [h1]
    have hs : ¬ ("A" : String) = "T" := by decide
    norm_num [gUnknown, share, hs]
  · exact h.2 (by simp [gUnknown]) (by simp [gUnknown])
      (by simp [gUnknown, pAna])

/-! The settlement loop: fuel irrelevance and basic invariants. -/

theorem tol_pos : 0 < tol := by norm_num [tol]

theorem min_residual (d c : ℚ) :
    d - min d c ≤ tol ∨ c - min d c ≤ tol := by
  rcases le_total d c with h | h
  · left
    rw [min_eq_left h]
    simp
    exact le_of_lt tol_pos
  · right
    rw [min_eq_right h]
    simp
    exact le_of_lt tol_pos

theorem advance_length (d c : Entry) (ds cs : List Entry) :
    (if d.amount - min d.amount c.amount ≤ tol then ds
     else ⟨d.id, d.amount - min d.amount c.amount⟩ :: ds).length +
    (if c.amount - min d.amount c.amount ≤ tol then cs
     else ⟨c.id, c.amount - min d.amount c.amount⟩ :: cs).length ≤
    ds.length + cs.length + 1 := by
  rcases min_residual d.amount c.amount with h | h
  · rw [if_pos h]
    by_cases h2 : c.amount - min d.amount c.amount ≤ tol
    · rw [if_pos h2]
      omega
    · rw [if_neg h2]
      simp only [List.length_cons]
      omega
  · rw [if_pos h]
    by_cases h2 : d.amount - min d.amount c.amount ≤ tol
    · rw [if_pos h2]
      omega
    · rw [if_neg h2]
      simp only [List.length_cons]
      omega

theorem matchF_irrel : ∀ (f1 f2 : Nat) (ds cs : List Entry),
    ds.length + cs.length ≤ f1 → ds.length + cs.length ≤ f2 →
    matchF f1 ds cs = matchF f2 ds cs := by
  intro f1
  induction f1 with
  | zero =>
    intro f2 ds cs h1 _
    have hds : ds = [] := List.length_eq_zero.1 (by omega)
    have hcs : cs = [] := List.length_eq_zero.1 (by omega)
    subst hds
    subst hcs
    cases f2 <;> rfl
  | succ n ih =>
    intro f2 ds cs h1 h2
    cases ds with
    | nil => cases f2 <;> rfl
    | cons d ds1 =>
      cases cs with
      | nil =>
        cases f2 with
        | zero =>
          exfalso
          simp only [List.length_cons, List.length_nil] at h2
          omega
        | succ m => rfl
      | cons c cs1 =>
        cases f2 with
        | zero =>
          exfalso
          simp only [List.length_cons] at h2
          omega
        | succ m =>
          simp only [matchF]
          congr 1
          have hadv := advance_length d c ds1 cs1
          simp only [List.length_cons] at h1 h2
          exact ih m _ _ (by omega) (by omega)

theorem matchLoop_eq_matchF (f : Nat) (ds cs : List Entry)
    (h : ds.length + cs.length ≤ f) : matchLoop ds cs = matchF f ds cs :=
  matchF_irrel _ _ _ _ le_rfl h

theorem matchF_mem_ids : ∀ (f : Nat) (ds cs : List Entry) (m : Move),
    m ∈ matchF f ds cs →
      m.fromId ∈ ds.map Entry.id ∧ m.toId ∈ cs.map Entry.id := by
  intro f
  induction f with
  | zero =>
    intro ds cs m hm
    simp [matchF] at hm
  | succ n ih =>
    intro ds cs m hm
    match ds, cs with
    | [], _ => simp [matchF] at hm
    | _ :: _, [] => simp [matchF] at hm
    | d :: ds1, c :: cs1 =>
      rcases List.mem_cons.1 hm with h | h
      · rw [h]
        simp
      · rcases ih _ _ _ h with ⟨h1, h2⟩
        constructor
        · simp only [List.map_cons]
          by_cases hd : d.amount - min d.amount c.amount ≤ tol
          · rw [if_pos hd] at h1
            exact List.mem_cons_of_mem _ h1
          · rw [if_neg hd] at h1
            exact h1
        · simp only [List.map_cons]
          by_cases hc : c.amount - min d.amount c.amount ≤ tol
          · rw [if_pos hc] at h2
            exact List.mem_cons_of_mem _ h2
          · rw [if_neg hc] at h2
            exact h2

theorem matchF_amount_gt : ∀ (f : Nat) (ds cs : List Entry),
    (∀ e ∈ ds, tol < e.amount) → (∀ e ∈ cs, tol < e.amount) →
    ∀ m ∈ matchF f ds cs, tol < m.amount := by
  intro f
  induction f with
  | zero =>
    intro ds cs _ _ m hm
    simp [matchF] at hm
  | succ n ih =>
    intro ds cs hd hc m hm
    match ds, cs with
    | [], _ => simp [matchF] at hm
    | _ :: _, [] => simp [matchF] at hm
    | d :: ds1, c :: cs1 =>
      rcases List.mem_cons.1 hm with h | h
      · rw [h]
        exact lt_min (hd d (List.mem_cons_self d ds1))
          (hc c (List.mem_cons_self c cs1))
      · refine ih _ _ ?_ ?_ m h
        · intro e he
          by_cases h2 : d.amount - min d.amount c.amount ≤ tol
          · rw [if_pos h2] at he
            exact hd e (List.mem_cons_of_mem _ he)
          · rw [if_neg h2] at he
            rcases List.mem_cons.1 he with h3 | h3
            · rw [h3]
              exact lt_of_not_le h2
            · exact hd e (List.mem_cons_of_mem _ h3)
        · intro e he
          by_cases h2 : c.amount - min d.amount c.amount ≤ tol
          · rw [if_pos h2] at he
            exact hc e (List.mem_cons_of_mem _ he)
          · rw [if_neg h2] at he
            rcases List.mem_cons.1 he with h3 | h3
            · rw [h3]
              exact lt_of_not_le h2
            · exact hc e (List.mem_cons_of_mem _ h3)

theorem matchF_length : ∀ (f : Nat) (ds cs : List Entry),
    (matchF f ds cs).length ≤ ds.length + cs.length - 1 := by
  intro f
  induction f with
  | zero =>
    intro ds cs
    simp [matchF]
  | succ n ih =>
    intro ds cs
    match ds, cs with
    | [], _ => simp [matchF]
    | _ :: _, [] => simp [matchF]
    | d :: ds1, c :: cs1 =>
      have hrec := ih
        (if d.amount - min d.amount c.amount ≤ tol then ds1
         else ⟨d.id, d.amount - min d.amount c.amount⟩ :: ds1)
        (if c.amount - min d.amount c.amount ≤ tol then cs1
         else ⟨c.id, c.amount - min d.amount c.amount⟩ :: cs1)
      have hadv := advance_length d c ds1 cs1
      simp only [matchF, List.length_cons]
      omega

/-! The stable descending sort. -/

theorem insertDesc_perm (e : Entry) (l : List Entry) :
    (insertDesc e l).Perm (e :: l) := by
  induction l with
  | nil => exact List.Perm.refl _
  | cons x xs ih =>
    unfold insertDesc
    by_cases h : x.amount ≤ e.amount
    · rw [if_pos h]
    · rw [if_neg h]
      exact (List.Perm.cons x ih).trans (List.Perm.swap e x xs)

theorem sortDesc_perm (l : List Entry) : (sortDesc l).Perm l := by
  induction l with
  | nil => exact List.Perm.refl _
  | cons x xs ih =>
    exact (insertDesc_perm x (sortDesc xs)).trans (List.Perm.cons x ih)

theorem sortDesc_mem (l : List Entry) (e : Entry) :
    e ∈ sortDesc l ↔ e ∈ l :=
  (sortDesc_perm l).mem_iff

theorem sortDesc_length (l : List Entry) : (sortDesc l).length = l.length :=
  (sortDesc_perm l).length_eq

theorem sortDesc_amtSum (l : List Entry) : amtSum (sortDesc l) = amtSum l :=
  ((sortDesc_perm l).map Entry.amount).sum_eq

theorem sortDesc_ids_perm (l : List Entry) :
    ((sortDesc l).map Entry.id).Perm (l.map Entry.id) :=
  (sortDesc_perm l).map Entry.id

/-! C7 and C10. -/

theorem debtorsOf_amount_gt (b : BalanceMap) :
    ∀ e ∈ debtorsOf b, tol < e.amount := by
  intro e he
  unfold debtorsOf at he
  rcases List.mem_map.1 he with ⟨x, hx, hxe⟩
  rcases List.mem_filter.1 hx with ⟨_, hcond⟩
  simp only [decide_eq_true_eq] at hcond
  rw [← hxe]
  show tol < -x.2
  linarith

theorem creditorsOf_amount_gt (b : BalanceMap) :
    ∀ e ∈ creditorsOf b, tol < e.amount := by
  intro e he
  unfold creditorsOf at he
  rcases List.mem_map.1 he with ⟨x, hx, hxe⟩
  rcases List.mem_filter.1 hx with ⟨_, hcond⟩
  simp only [decide_eq_true_eq] at hcond
  rw [← hxe]
  exact hcond

/-- C7. Every transfer emitted by the settlement computation has a strictly
positive amount. -/
theorem settlements_amount_pos (b : BalanceMap) (m : Move)
    (hm : m ∈ settlements b) : 0 < m.amount := by
  unfold settlements matchLoop at hm
  have hgt := matchF_amount_gt _ _ _
    (fun e he => debtorsOf_amount_gt b e ((sortDesc_mem _ e).1 he))
    (fun e he => creditorsOf_amount_gt b e ((sortDesc_mem _ e).1 he))
    m hm
  exact lt_trans tol_pos hgt

def bP : BalanceMap := [("u", 1), ("w", -1)]

/-- Witness for C7: on a one-debtor one-creditor map the emitted transfer of
1 is positive. -/
theorem settlements_amount_pos_witness :
    (⟨"w", "u", 1⟩ : Move) ∈ settlements bP ∧
      (0:ℚ) < (⟨"w", "u", 1⟩ : Move).amount := by
  have hs : settlements bP = [⟨"w", "u", 1⟩] := by
    norm_num [settlements, bP, matchLoop, matchF, sortDesc, insertDesc,
      debtorsOf, creditorsOf, tol, min_def]
  have hm : (⟨"w", "u", 1⟩ : Move) ∈ settlements bP := by
    rw [hs]
    exact List.mem_cons_self _ _
  exact ⟨hm, settlements_amount_pos bP _ hm⟩

/-- C10. The settlement loop terminates and emits at most one transfer fewer
than the combined number of debtors and creditors. -/
theorem settlements_length_bound (b : BalanceMap) :
    (settlements b).length ≤ (debtorsOf b).length + (creditorsOf b).length - 1 := by
  unfold settlements matchLoop
  calc (matchF _ _ _).length
      ≤ (sortDesc (debtorsOf b)).length + (sortDesc (creditorsOf b)).length - 1 :=
        matchF_length _ _ _
    _ = (debtorsOf b).length + (creditorsOf b).length - 1 := by
        rw [sortDesc_length, sortDesc_length]

/-! C6: the tolerance boundary of the debtor and creditor partition. -/

theorem debtor_ids_eq (b : BalanceMap) :
    (debtorsOf b).map Entry.id =
      (b.filter (fun e => decide (e.2 < -tol))).map Prod.fst := by
  unfold debtorsOf
  rw [List.map_map]
  rfl

theorem creditor_ids_eq (b : BalanceMap) :
    (creditorsOf b).map Entry.id =
      (b.filter (fun e => decide (tol < e.2))).map Prod.fst := by
  unfold creditorsOf
  rw [List.map_map]
  rfl

theorem mem_pair (b : BalanceMap) (e : String × ℚ) (he : e ∈ b) :
    (e.1, e.2) ∈ b := by
  simpa using he

/-- C6. A balance of exactly 0.005 (or exactly minus 0.005) is excluded from
both the debtor and the creditor list, while 0.0051 (or minus 0.0051) is
included on the corresponding side. -/
theorem tolerance_boundary (b : BalanceMap) (p : String) (v : ℚ)
    (hmem : (p, v) ∈ b) (hnd : (keysB b).Nodup) :
    ((v = 1/200 ∨ v = -(1/200)) →
        p ∉ (debtorsOf b).map Entry.id ∧ p ∉ (creditorsOf b).map Entry.id) ∧
    (v = 51/10000 → p ∈ (creditorsOf b).map Entry.id) ∧
    (v = -(51/10000) → p ∈ (debtorsOf b).map Entry.id) := by
  have huniq : ∀ w, (p, w) ∈ b → w = v := by
    intro w hw
    have h1 := getD_eq_of_mem b p v hnd hmem
    have h2 := getD_eq_of_mem b p w hnd hw
    exact (h1.symm.trans h2).symm
  refine ⟨?_, ?_, ?_⟩
  · intro hv
    constructor
    · intro hin
      rw [debtor_ids_eq] at hin
      rcases List.mem_map.1 hin with ⟨e, he, hfst⟩
      rcases List.mem_filter.1 he with ⟨heb, hcond⟩
      simp only [decide_eq_true_eq] at hcond
      have hv2 : e.2 = v := huniq e.2 (hfst ▸ mem_pair b e heb)
      rw [hv2] at hcond
      rcases hv with hv | hv <;> rw [hv] at hcond <;> norm_num [tol] at hcond
    · intro hin
      rw [creditor_ids_eq] at hin
      rcases List.mem_map.1 hin with ⟨e, he, hfst⟩
      rcases List.mem_filter.1 he with ⟨heb, hcond⟩
      simp only [decide_eq_true_eq] at hcond
      have hv2 : e.2 = v := huniq e.2 (hfst ▸ mem_pair b e heb)
      rw [hv2] at hcond
      rcases hv with hv | hv <;> rw [hv] at hcond <;> norm_num [tol] at hcond
  · intro hv
    rw [creditor_ids_eq]
    refine List.mem_map.2 ⟨(p, v), List.mem_filter.2 ⟨hmem, ?_⟩, rfl⟩
    simp only [decide_eq_true_eq]
    rw [hv]
    norm_num [tol]
  · intro hv
    rw [debtor_ids_eq]
    refine List.mem_map.2 ⟨(p, v), List.mem_filter.2 ⟨hmem, ?_⟩, rfl⟩
    simp only [decide_eq_true_eq]
    rw [hv]
    norm_num [tol]

def bTol : BalanceMap :=
  [("w", 1/200), ("x", -(1/200)), ("y", 51/10000), ("z", -(51/10000))]

/-- Witness for C6 on a concrete map holding the four boundary values. -/
theorem tolerance_boundary_witness :
    ("w" ∉ (debtorsOf bTol).map Entry.id ∧
      "w" ∉ (creditorsOf bTol).map Entry.id) ∧
    "y" ∈ (creditorsOf bTol).map Entry.id ∧
    "z" ∈ (debtorsOf bTol).map Entry.id := by
  have hnd : (keysB bTol).Nodup := by
    simp [bTol, keysB]
  refine ⟨(tolerance_boundary bTol "w" (1/200) (by simp [bTol]) hnd).1
    (Or.inl rfl), ?_, ?_⟩
  · exact (tolerance_boundary bTol "y" (51/10000) (by simp [bTol]) hnd).2.1 rfl
  · exact (tolerance_boundary bTol "z" (-(51/10000)) (by simp [bTol]) hnd).2.2 rfl

/-! C8: deleting a participant cascades over the expense list. -/

theorem map_filter_eq_filterMap (pid : String) (gs : List Expense) :
    (gs.map (fun g => { g with
        participantes := g.participantes.filter (fun q => decide (q ≠ pid)) })).filter
      (fun g => decide (g.pagadorId ≠ pid)) =
    gs.filterMap (fun g =>
      if g.pagadorId = pid then none
      else some { g with
        participantes := g.participantes.filter (fun q => decide (q ≠ pid)) }) := by
  induction gs with
  | nil => rfl
  | cons g gs ih =>
    simp only [List.map_cons, List.filterMap_cons, List.filter_cons]
    by_cases h : g.pagadorId = pid
    · rw [if_pos h, if_neg (by simp [h])]
      exact ih
    · rw [if_neg h, if_pos (by simp [h])]
      rw [ih]

/-- C8. Deleting a participant removes its id from every expense's
participant set and deletes every expense whose payer it was; all other
expenses keep their id, description, amount, payer, date and remaining
participants. -/
theorem removePersona_cascade (s : AppState) (pid : String) :
    (removePersona pid s).gastos =
      s.gastos.filterMap (fun g =>
        if g.pagadorId = pid then none
        else some { g with
          participantes := g.participantes.filter (fun q => decide (q ≠ pid)) }) ∧
    (∀ g ∈ (removePersona pid s).gastos,
        pid ∉ g.participantes ∧ g.pagadorId ≠ pid) ∧
    (∀ p ∈ (removePersona pid s).personas, p.id ≠ pid) := by
  refine ⟨map_filter_eq_filterMap pid s.gastos, ?_, ?_⟩
  · intro g hg
    unfold removePersona at hg
    simp only at hg
    rcases List.mem_filter.1 hg with ⟨hmap, hpay⟩
    simp only [decide_eq_true_eq] at hpay
    rcases List.mem_map.1 hmap with ⟨g0, _, hg0⟩
    constructor
    · rw [← hg0]
      simp only
      intro hin
      rcases List.mem_filter.1 hin with ⟨_, hq⟩
      simp at hq
    · exact hpay
  · intro p hp
    unfold removePersona at hp
    simp only at hp
    rcases List.mem_filter.1 hp with ⟨_, hq⟩
    simpa using hq

def stDemo : AppState :=
  { personas := [{ id := "a", nombre := "Ana" }, { id := "b", nombre := "Beto" }],
    gastos :=
      [{ id := "g1", descripcion := "cena", monto := 20, pagadorId := "a",
         participantes := ["a", "b"], fecha := "2026-01-01" },
       { id := "g2", descripcion := "taxi", monto := 10, pagadorId := "b",
         participantes := ["a", "b"], fecha := "2026-01-02" }],
    moneda := "USD" }

/-- Witness for C8 on a concrete two-person state. -/
theorem removePersona_cascade_witness :
    (removePersona "b" stDemo).gastos =
      stDemo.gastos.filterMap (fun g =>
        if g.pagadorId = "b" then none
        else some { g with
          participantes := g.participantes.filter (fun q => decide (q ≠ "b")) }) ∧
    (∀ g ∈ (removePersona "b" stDemo).gastos,
        "b" ∉ g.participantes ∧ g.pagadorId ≠ "b") ∧
    (∀ p ∈ (removePersona "b" stDemo).personas, p.id ≠ "b") :=
  removePersona_cascade stDemo "b"

/-! Payment bookkeeping over a transfer list. -/

theorem paidTo_nil (p : String) : paidTo [] p = 0 := rfl

theorem paidBy_nil (p : String) : paidBy [] p = 0 := rfl

theorem sumMoves_cons (m : Move) (ms : List Move) :
    sumMoves (m :: ms) = m.amount + sumMoves ms := by
  simp [sumMoves]

theorem amtSum_cons (e : Entry) (l : List Entry) :
    amtSum (e :: l) = e.amount + amtSum l := by
  simp [amtSum]

theorem paidTo_cons (m : Move) (ms : List Move) (p : String) :
    paidTo (m :: ms) p = (if m.toId = p then m.amount else 0) + paidTo ms p := by
  unfold paidTo
  rw [List.filter_cons]
  by_cases h : m.toId = p
  · rw [if_pos (by simp [h]), if_pos h]
    simp
  · rw [if_neg (by simp [h]), if_neg h]
    simp

theorem paidBy_cons (m : Move) (ms : List Move) (p : String) :
    paidBy (m :: ms) p = (if m.fromId = p then m.amount else 0) + paidBy ms p := by
  unfold paidBy
  rw [List.filter_cons]
  by_cases h : m.fromId = p
  · rw [if_pos (by simp [h]), if_pos h]
    simp
  · rw [if_neg (by simp [h]), if_neg h]
    simp

theorem paidTo_eq_zero (ms : List Move) (p : String)
    (h : ∀ m ∈ ms, m.toId ≠ p) : paidTo ms p = 0 := by
  induction ms with
  | nil => rfl
  | cons m ms ih =>
    rw [paidTo_cons, if_neg (h m (List.mem_cons_self m ms)),
      ih (fun x hx => h x (List.mem_cons_of_mem _ hx))]
    ring

theorem paidBy_eq_zero (ms : List Move) (p : String)
    (h : ∀ m ∈ ms, m.fromId ≠ p) : paidBy ms p = 0 := by
  induction ms with
  | nil => rfl
  | cons m ms ih =>
    rw [paidBy_cons, if_neg (h m (List.mem_cons_self m ms)),
      ih (fun x hx => h x (List.mem_cons_of_mem _ hx))]
    ring

theorem amtSum_nonneg (l : List Entry) (h : ∀ e ∈ l, 0 ≤ e.amount) :
    0 ≤ amtSum l := by
  induction l with
  | nil => simp [amtSum]
  | cons e l ih =>
    rw [amtSum_cons]
    have h1 := h e (List.mem_cons_self e l)
    have h2 := ih (fun x hx => h x (List.mem_cons_of_mem _ hx))
    linarith

theorem sum_map_sub {α : Type} (l : List α) (f g : α → ℚ) :
    (l.map fun x => f x - g x).sum = (l.map f).sum - (l.map g).sum := by
  induction l with
  | nil => simp
  | cons a l ih =>
    simp only [List.map_cons, List.sum_cons, ih]
    ring

/-! Nonnegativity of the work lists is preserved by the loop step. -/

theorem branch_d_nonneg (d c : Entry) (ds1 : List Entry)
    (hd : ∀ e ∈ d :: ds1, 0 ≤ e.amount) :
    ∀ e ∈ (if d.amount - min d.amount c.amount ≤ tol then ds1
           else ⟨d.id, d.amount - min d.amount c.amount⟩ :: ds1), 0 ≤ e.amount := by
  intro e he
  by_cases h2 : d.amount - min d.amount c.amount ≤ tol
  · rw [if_pos h2] at he
    exact hd e (List.mem_cons_of_mem _ he)
  · rw [if_neg h2] at he
    rcases List.mem_cons.1 he with h3 | h3
    · rw [h3]
      have := min_le_left d.amount c.amount
      show (0:ℚ) ≤ d.amount - min d.amount c.amount
      linarith
    · exact hd e (List.mem_cons_of_mem _ h3)

theorem branch_c_nonneg (d c : Entry) (cs1 : List Entry)
    (hc : ∀ e ∈ c :: cs1, 0 ≤ e.amount) :
    ∀ e ∈ (if c.amount - min d.amount c.amount ≤ tol then cs1
           else ⟨c.id, c.amount - min d.amount c.amount⟩ :: cs1), 0 ≤ e.amount := by
  intro e he
  by_cases h2 : c.amount - min d.amount c.amount ≤ tol
  · rw [if_pos h2] at he
    exact hc e (List.mem_cons_of_mem _ he)
  · rw [if_neg h2] at he
    rcases List.mem_cons.1 he with h3 | h3
    · rw [h3]
      have := min_le_right d.amount c.amount
      show (0:ℚ) ≤ c.amount - min d.amount c.amount
      linarith
    · exact hc e (List.mem_cons_of_mem _ h3)

/-! The emitted total never exceeds either side's total. -/

theorem matchF_sum_le_amtD : ∀ (f : Nat) (ds cs : List Entry),
    (∀ e ∈ ds, 0 ≤ e.amount) → sumMoves (matchF f ds cs) ≤ amtSum ds := by
  intro f
  induction f with
  | zero =>
    intro ds cs hd
    simpa [matchF, sumMoves] using amtSum_nonneg ds hd
  | succ n ih =>
    intro ds cs hd
    match ds, cs with
    | [], _ => simp [matchF, sumMoves, amtSum]
    | d :: ds1, [] =>
      simpa [matchF, sumMoves] using amtSum_nonneg _ hd
    | d :: ds1, c :: cs1 =>
      simp only [matchF, sumMoves_cons]
      have hrec := ih
        (if d.amount - min d.amount c.amount ≤ tol then ds1
         else ⟨d.id, d.amount - min d.amount c.amount⟩ :: ds1)
        (if c.amount - min d.amount c.amount ≤ tol then cs1
         else ⟨c.id, c.amount - min d.amount c.amount⟩ :: cs1)
        (branch_d_nonneg d c ds1 hd)
      rw [amtSum_cons]
      by_cases h2 : d.amount - min d.amount c.amount ≤ tol
      · rw [if_pos h2] at hrec ⊢
        have hm := min_le_left d.amount c.amount
        linarith
      · rw [if_neg h2] at hrec ⊢
        rw [amtSum_cons] at hrec
        simp only at hrec
        linarith

theorem matchF_sum_le_amtC : ∀ (f : Nat) (ds cs : List Entry),
    (∀ e ∈ cs, 0 ≤ e.amount) → sumMoves (matchF f ds cs) ≤ amtSum cs := by
  intro f
  induction f with
  | zero =>
    intro ds cs hc
    simpa [matchF, sumMoves] using amtSum_nonneg cs hc
  | succ n ih =>
    intro ds cs hc
    match ds, cs with
    | [], _ => simpa [matchF, sumMoves] using amtSum_nonneg _ hc
    | d :: ds1, [] => simp [matchF, sumMoves, amtSum]
    | d :: ds1, c :: cs1 =>
      simp only [matchF, sumMoves_cons]
      have hrec := ih
        (if d.amount - min d.amount c.amount ≤ tol then ds1
         else ⟨d.id, d.amount - min d.amount c.amount⟩ :: ds1)
        (if c.amount - min d.amount c.amount ≤ tol then cs1
         else ⟨c.id, c.amount - min d.amount c.amount⟩ :: cs1)
        (branch_c_nonneg d c cs1 hc)
      rw [amtSum_cons]
      by_cases h2 : c.amount - min d.amount c.amount ≤ tol
      · rw [if_pos h2] at hrec ⊢
        have hm := min_le_right d.amount c.amount
        linarith
      · rw [if_neg h2] at hrec ⊢
        rw [amtSum_cons] at hrec
        simp only at hrec
        linarith

/-- The loop pays out at least the smaller side's total, up to one tolerance
per processed entry. -/
theorem matchF_sum_lower : ∀ (f : Nat) (ds cs : List Entry),
    (∀ e ∈ ds, 0 ≤ e.amount) → (∀ e ∈ cs, 0 ≤ e.amount) →
    ds.length + cs.length ≤ f →
    min (amtSum ds) (amtSum cs) - tol * ((ds.length + cs.length : Nat) : ℚ) ≤
      sumMoves (matchF f ds cs) := by
  intro f
  induction f with
  | zero =>
    intro ds cs _ _ hf
    have hds : ds = [] := List.length_eq_zero.1 (by omega)
    have hcs : cs = [] := List.length_eq_zero.1 (by omega)
    subst hds
    subst hcs
    simp [matchF, sumMoves, amtSum]
  | succ n ih =>
    intro ds cs hd hc hf
    match ds, cs with
    | [], cs2 =>
      have h3 : min (amtSum ([] : List Entry)) (amtSum cs2) ≤ 0 := by
        have h0 : amtSum ([] : List Entry) = 0 := rfl
        rw [h0]
        exact min_le_left 0 _
      have h4 : (0:ℚ) ≤ tol * ((((List.length ([] : List Entry)) + cs2.length : Nat)) : ℚ) := by
        apply mul_nonneg (le_of_lt tol_pos)
        positivity
      have h5 : sumMoves (matchF (n+1) [] cs2) = 0 := by
        simp [matchF, sumMoves]
      rw [h5]
      linarith
    | d :: ds1, [] =>
      have h3 : min (amtSum (d :: ds1)) (amtSum ([] : List Entry)) ≤ 0 := by
        have h0 : amtSum ([] : List Entry) = 0 := rfl
        rw [← h0]
        exact min_le_right _ _
      have h4 : (0:ℚ) ≤ tol * ((((d :: ds1).length + (List.length ([] : List Entry)) : Nat)) : ℚ) := by
        apply mul_nonneg (le_of_lt tol_pos)
        positivity
      have h5 : sumMoves (matchF (n+1) (d :: ds1) []) = 0 := by
        simp [matchF, sumMoves]
      rw [h5]
      linarith
    | d :: ds1, c :: cs1 =>
      simp only [List.length_cons] at hf
      have hone := min_residual d.amount c.amount
      have hAc := amtSum_cons d ds1
      have hBc := amtSum_cons c cs1
      have hA := min_le_left (amtSum (d :: ds1)) (amtSum (c :: cs1))
      have hB := min_le_right (amtSum (d :: ds1)) (amtSum (c :: cs1))
      have ht := tol_pos
      by_cases hD : d.amount - min d.amount c.amount ≤ tol
      · by_cases hC : c.amount - min d.amount c.amount ≤ tol
        · simp only [matchF, if_pos hD, if_pos hC, sumMoves_cons]
          have hrec := ih ds1 cs1
            (fun e he => hd e (List.mem_cons_of_mem _ he))
            (fun e he => hc e (List.mem_cons_of_mem _ he)) (by omega)
          have hmin : min (amtSum (d :: ds1)) (amtSum (c :: cs1)) -
              min d.amount c.amount - tol ≤ min (amtSum ds1) (amtSum cs1) := by
            apply le_min
            · linarith
            · linarith
          have hcast : ((((d :: ds1).length + (c :: cs1).length : Nat)) : ℚ) =
              ((ds1.length + cs1.length : Nat) : ℚ) + 2 := by
            simp only [List.length_cons]
            push_cast
            ring
          rw [hcast]
          linarith
        · simp only [matchF, if_pos hD, if_neg hC, sumMoves_cons]
          have hrec := ih ds1 (⟨c.id, c.amount - min d.amount c.amount⟩ :: cs1)
            (fun e he => hd e (List.mem_cons_of_mem _ he))
            (by
              intro e he
              rcases List.mem_cons.1 he with h3 | h3
              · rw [h3]
                have := min_le_right d.amount c.amount
                show (0:ℚ) ≤ c.amount - min d.amount c.amount
                linarith
              · exact hc e (List.mem_cons_of_mem _ h3))
            (by simp only [List.length_cons]; omega)
          have hYc : amtSum (⟨c.id, c.amount - min d.amount c.amount⟩ :: cs1) =
              (c.amount - min d.amount c.amount) + amtSum cs1 := by
            rw [amtSum_cons]
          have hmin : min (amtSum (d :: ds1)) (amtSum (c :: cs1)) -
              min d.amount c.amount - tol ≤
              min (amtSum ds1)
                (amtSum (⟨c.id, c.amount - min d.amount c.amount⟩ :: cs1)) := by
            apply le_min
            · linarith
            · linarith
          have hcast : ((((d :: ds1).length + (c :: cs1).length : Nat)) : ℚ) =
              ((ds1.length +
                (⟨c.id, c.amount - min d.amount c.amount⟩ :: cs1).length : Nat) : ℚ) + 1 := by
            simp only [List.length_cons]
            push_cast
            ring
          rw [hcast]
          linarith
      · by_cases hC : c.amount - min d.amount c.amount ≤ tol
        · simp only [matchF, if_neg hD, if_pos hC, sumMoves_cons]
          have hrec := ih (⟨d.id, d.amount - min d.amount c.amount⟩ :: ds1) cs1
            (by
              intro e he
              rcases List.mem_cons.1 he with h3 | h3
              · rw [h3]
                have := min_le_left d.amount c.amount
                show (0:ℚ) ≤ d.amount - min d.amount c.amount
                linarith
              · exact hd e (List.mem_cons_of_mem _ h3))
            (fun e he => hc e (List.mem_cons_of_mem _ he))
            (by simp only [List.length_cons]; omega)
          have hXc : amtSum (⟨d.id, d.amount - min d.amount c.amount⟩ :: ds1) =
              (d.amount - min d.amount c.amount) + amtSum ds1 := by
            rw [amtSum_cons]
          have hmin : min (amtSum (d :: ds1)) (amtSum (c :: cs1)) -
              min d.amount c.amount - tol ≤
              min (amtSum (⟨d.id, d.amount - min d.amount c.amount⟩ :: ds1))
                (amtSum cs1) := by
            apply le_min
            · linarith
            · linarith
          have hcast : ((((d :: ds1).length + (c :: cs1).length : Nat)) : ℚ) =
              (((⟨d.id, d.amount - min d.amount c.amount⟩ :: ds1).length +
                cs1.length : Nat) : ℚ) + 1 := by
            simp only [List.length_cons]
            push_cast
            ring
          rw [hcast]
          linarith
        · exfalso
          rcases hone with h | h
          · exact hD h
          · exact hC h

@[simp] theorem mkEntry_id (i : String) (a : ℚ) : (Entry.mk i a).id = i := rfl

@[simp] theorem mkEntry_amount (i : String) (a : ℚ) :
    (Entry.mk i a).amount = a := rfl

@[simp] theorem mkMove_fromId (f t : String) (a : ℚ) :
    (Move.mk f t a).fromId = f := rfl

@[simp] theorem mkMove_toId (f t : String) (a : ℚ) :
    (Move.mk f t a).toId = t := rfl

@[simp] theorem mkMove_amount (f t : String) (a : ℚ) :
    (Move.mk f t a).amount = a := rfl

theorem sum_ite_id (cs : List Entry) (x : String) (a : ℚ)
    (hnd : (cs.map Entry.id).Nodup) (hx : x ∈ cs.map Entry.id) :
    (cs.map (fun e => if x = e.id then a else 0)).sum = a := by
  induction cs with
  | nil => simp at hx
  | cons c cs ih =>
    rw [List.map_cons, List.nodup_cons] at hnd
    rw [List.map_cons, List.mem_cons] at hx
    simp only [List.map_cons, List.sum_cons]
    rcases hx with h1 | h1
    · rw [if_pos h1]
      have hz : (cs.map (fun e => if x = e.id then a else 0)).sum = 0 := by
        apply List.sum_eq_zero
        intro y hy
        rcases List.mem_map.1 hy with ⟨e, he, hye⟩
        rw [← hye, if_neg]
        intro hq
        apply hnd.1
        rw [← h1, hq]
        exact List.mem_map_of_mem Entry.id he
      rw [hz]
      ring
    · have hne : ¬ x = c.id := by
        intro hq
        exact hnd.1 (hq ▸ h1)
      rw [if_neg hne, ih hnd.2 h1]
      ring

theorem sum_paidTo_eq (ms : List Move) : ∀ cs : List Entry,
    (cs.map Entry.id).Nodup → (∀ m ∈ ms, m.toId ∈ cs.map Entry.id) →
    (cs.map (fun e => paidTo ms e.id)).sum = sumMoves ms := by
  induction ms with
  | nil =>
    intro cs _ _
    have h0 : cs.map (fun e => paidTo [] e.id) = cs.map (fun _ => (0:ℚ)) := by
      apply List.map_congr_left
      intro e _
      rfl
    rw [h0, sum_map_const]
    simp [sumMoves]
  | cons m ms ih =>
    intro cs hnd h
    have hstep : cs.map (fun e => paidTo (m :: ms) e.id) =
        cs.map (fun e => (if m.toId = e.id then m.amount else 0) + paidTo ms e.id) := by
      apply List.map_congr_left
      intro e _
      exact paidTo_cons m ms e.id
    rw [hstep, sum_map_add,
      ih cs hnd (fun x hx => h x (List.mem_cons_of_mem _ hx)), sumMoves_cons]
    congr 1
    exact sum_ite_id cs m.toId m.amount hnd (h m (List.mem_cons_self m ms))

theorem sum_paidBy_eq (ms : List Move) : ∀ ds : List Entry,
    (ds.map Entry.id).Nodup → (∀ m ∈ ms, m.fromId ∈ ds.map Entry.id) →
    (ds.map (fun e => paidBy ms e.id)).sum = sumMoves ms := by
  induction ms with
  | nil =>
    intro ds _ _
    have h0 : ds.map (fun e => paidBy [] e.id) = ds.map (fun _ => (0:ℚ)) := by
      apply List.map_congr_left
      intro e _
      rfl
    rw [h0, sum_map_const]
    simp [sumMoves]
  | cons m ms ih =>
    intro ds hnd h
    have hstep : ds.map (fun e => paidBy (m :: ms) e.id) =
        ds.map (fun e => (if m.fromId = e.id then m.amount else 0) + paidBy ms e.id) := by
      apply List.map_congr_left
      intro e _
      exact paidBy_cons m ms e.id
    rw [hstep, sum_map_add,
      ih ds hnd (fun x hx => h x (List.mem_cons_of_mem _ hx)), sumMoves_cons]
    congr 1
    exact sum_ite_id ds m.fromId m.amount hnd (h m (List.mem_cons_self m ms))

/-- No creditor ever receives more than its recorded amount. -/
theorem matchF_paidTo_le : ∀ (f : Nat) (ds cs : List Entry),
    (cs.map Entry.id).Nodup → (∀ e ∈ cs, 0 ≤ e.amount) →
    ∀ e ∈ cs, paidTo (matchF f ds cs) e.id ≤ e.amount := by
  intro f
  induction f with
  | zero =>
    intro ds cs _ hnn e he
    simpa [matchF, paidTo] using hnn e he
  | succ n ih =>
    intro ds cs hnd hnn e he
    match ds, cs with
    | [], cs2 =>
      simpa [matchF, paidTo] using hnn e he
    | d :: ds1, [] => simp at he
    | d :: ds1, c :: cs1 =>
      simp only [matchF]
      rw [paidTo_cons]
      simp only [mkMove_toId, mkMove_amount]
      rcases List.mem_cons.1 he with rfl | he1
      · rw [if_pos rfl]
        by_cases hC : e.amount - min d.amount e.amount ≤ tol
        · rw [if_pos hC]
          have hz : paidTo (matchF n
              (if d.amount - min d.amount e.amount ≤ tol then ds1
               else ⟨d.id, d.amount - min d.amount e.amount⟩ :: ds1) cs1) e.id = 0 := by
            apply paidTo_eq_zero
            intro m hm
            have hmem := (matchF_mem_ids n _ _ m hm).2
            intro hq
            rw [List.map_cons, List.nodup_cons] at hnd
            exact hnd.1 (hq ▸ hmem)
          rw [hz]
          have := min_le_right d.amount e.amount
          linarith
        · rw [if_neg hC]
          have hnd2 : ((⟨e.id, e.amount - min d.amount e.amount⟩ :: cs1).map
              Entry.id).Nodup := by
            simpa using hnd
          have hnn2 : ∀ x ∈ (⟨e.id, e.amount - min d.amount e.amount⟩ :: cs1),
              0 ≤ x.amount := by
            intro x hx
            rcases List.mem_cons.1 hx with h3 | h3
            · rw [h3]
              have := min_le_right d.amount e.amount
              show (0:ℚ) ≤ e.amount - min d.amount e.amount
              linarith
            · exact hnn x (List.mem_cons_of_mem _ h3)
          have hrec := ih
            (if d.amount - min d.amount e.amount ≤ tol then ds1
             else ⟨d.id, d.amount - min d.amount e.amount⟩ :: ds1)
            (⟨e.id, e.amount - min d.amount e.amount⟩ :: cs1)
            hnd2 hnn2 ⟨e.id, e.amount - min d.amount e.amount⟩
            (List.mem_cons_self _ _)
          simp only [mkEntry_id, mkEntry_amount] at hrec
          have := min_le_right d.amount e.amount
          linarith
      · have hne : ¬ c.id = e.id := by
          intro hq
          rw [List.map_cons, List.nodup_cons] at hnd
          exact hnd.1 (hq ▸ List.mem_map_of_mem Entry.id he1)
        rw [if_neg hne]
        have hnd1 : (cs1.map Entry.id).Nodup := by
          rw [List.map_cons, List.nodup_cons] at hnd
          exact hnd.2
        have hnn1 : ∀ x ∈ cs1, 0 ≤ x.amount :=
          fun x hx => hnn x (List.mem_cons_of_mem _ hx)
        by_cases hC : c.amount - min d.amount c.amount ≤ tol
        · rw [if_pos hC]
          have hrec := ih
            (if d.amount - min d.amount c.amount ≤ tol then ds1
             else ⟨d.id, d.amount - min d.amount c.amount⟩ :: ds1)
            cs1 hnd1 hnn1 e he1
          linarith
        · rw [if_neg hC]
          have hnd2 : ((⟨c.id, c.amount - min d.amount c.amount⟩ :: cs1).map
              Entry.id).Nodup := by
            simpa using hnd
          have hnn2 : ∀ x ∈ (⟨c.id, c.amount - min d.amount c.amount⟩ :: cs1),
              0 ≤ x.amount := by
            intro x hx
            rcases List.mem_cons.1 hx with h3 | h3
            · rw [h3]
              have := min_le_right d.amount c.amount
              show (0:ℚ) ≤ c.amount - min d.amount c.amount
              linarith
            · exact hnn1 x h3
          have hrec := ih
            (if d.amount - min d.amount c.amount ≤ tol then ds1
             else ⟨d.id, d.amount - min d.amount c.amount⟩ :: ds1)
            (⟨c.id, c.amount - min d.amount c.amount⟩ :: cs1)
            hnd2 hnn2 e (List.mem_cons_of_mem _ he1)
          linarith

/-- No debtor ever pays more than its recorded amount. -/
theorem matchF_paidBy_le : ∀ (f : Nat) (ds cs : List Entry),
    (ds.map Entry.id).Nodup → (∀ e ∈ ds, 0 ≤ e.amount) →
    ∀ e ∈ ds, paidBy (matchF f ds cs) e.id ≤ e.amount := by
  intro f
  induction f with
  | zero =>
    intro ds cs _ hnn e he
    simpa [matchF, paidBy] using hnn e he
  | succ n ih =>
    intro ds cs hnd hnn e he
    match ds, cs with
    | [], cs2 => simp at he
    | d :: ds1, [] =>
      simpa [matchF, paidBy] using hnn e he
    | d :: ds1, c :: cs1 =>
      simp only [matchF]
      rw [paidBy_cons]
      simp only [mkMove_fromId, mkMove_amount]
      rcases List.mem_cons.1 he with rfl | he1
      · rw [if_pos rfl]
        by_cases hD : e.amount - min e.amount c.amount ≤ tol
        · rw [if_pos hD]
          have hz : paidBy (matchF n ds1
              (if c.amount - min e.amount c.amount ≤ tol then cs1
               else ⟨c.id, c.amount - min e.amount c.amount⟩ :: cs1)) e.id = 0 := by
            apply paidBy_eq_zero
            intro m hm
            have hmem := (matchF_mem_ids n _ _ m hm).1
            intro hq
            rw [List.map_cons, List.nodup_cons] at hnd
            exact hnd.1 (hq ▸ hmem)
          rw [hz]
          have := min_le_left e.amount c.amount
          linarith
        · rw [if_neg hD]
          have hnd2 : ((⟨e.id, e.amount - min e.amount c.amount⟩ :: ds1).map
              Entry.id).Nodup := by
            simpa using hnd
          have hnn2 : ∀ x ∈ (⟨e.id, e.amount - min e.amount c.amount⟩ :: ds1),
              0 ≤ x.amount := by
            intro x hx
            rcases List.mem_cons.1 hx with h3 | h3
            · rw [h3]
              have := min_le_left e.amount c.amount
              show (0:ℚ) ≤ e.amount - min e.amount c.amount
              linarith
            · exact hnn x (List.mem_cons_of_mem _ h3)
          have hrec := ih
            (⟨e.id, e.amount - min e.amount c.amount⟩ :: ds1)
            (if c.amount - min e.amount c.amount ≤ tol then cs1
             else ⟨c.id, c.amount - min e.amount c.amount⟩ :: cs1)
            hnd2 hnn2 ⟨e.id, e.amount - min e.amount c.amount⟩
            (List.mem_cons_self _ _)
          simp only [mkEntry_id, mkEntry_amount] at hrec
          have := min_le_left e.amount c.amount
          linarith
      · have hne : ¬ d.id = e.id := by
          intro hq
          rw [List.map_cons, List.nodup_cons] at hnd
          exact hnd.1 (hq ▸ List.mem_map_of_mem Entry.id he1)
        rw [if_neg hne]
        have hnd1 : (ds1.map Entry.id).Nodup := by
          rw [List.map_cons, List.nodup_cons] at hnd
          exact hnd.2
        have hnn1 : ∀ x ∈ ds1, 0 ≤ x.amount :=
          fun x hx => hnn x (List.mem_cons_of_mem _ hx)
        by_cases hD : d.amount - min d.amount c.amount ≤ tol
        · rw [if_pos hD]
          have hrec := ih ds1
            (if c.amount - min d.amount c.amount ≤ tol then cs1
             else ⟨c.id, c.amount - min d.amount c.amount⟩ :: cs1)
            hnd1 hnn1 e he1
          linarith
        · rw [if_neg hD]
          have hnd2 : ((⟨d.id, d.amount - min d.amount c.amount⟩ :: ds1).map
              Entry.id).Nodup := by
            simpa using hnd
          have hnn2 : ∀ x ∈ (⟨d.id, d.amount - min d.amount c.amount⟩ :: ds1),
              0 ≤ x.amount := by
            intro x hx
            rcases List.mem_cons.1 hx with h3 | h3
            · rw [h3]
              have := min_le_left d.amount c.amount
              show (0:ℚ) ≤ d.amount - min d.amount c.amount
              linarith
            · exact hnn1 x h3
          have hrec := ih
            (⟨d.id, d.amount - min d.amount c.amount⟩ :: ds1)
            (if c.amount - min d.amount c.amount ≤ tol then cs1
             else ⟨c.id, c.amount - min d.amount c.amount⟩ :: cs1)
            hnd2 hnn2 e (List.mem_cons_of_mem _ he1)
          linarith

/-! Totals of the two work lists against the positive and negative totals of
the balance map. -/

theorem posSum_cons (e : String × ℚ) (b : BalanceMap) :
    posSum (e :: b) = (if 0 < e.2 then e.2 else 0) + posSum b := by
  unfold posSum
  rw [List.filter_cons]
  by_cases h : 0 < e.2
  · rw [if_pos (by simpa using h), if_pos h]
    simp
  · rw [if_neg (by simpa using h), if_neg h]
    simp

theorem negSum_cons (e : String × ℚ) (b : BalanceMap) :
    negSum (e :: b) = (if e.2 < 0 then -e.2 else 0) + negSum b := by
  unfold negSum
  rw [List.filter_cons]
  by_cases h : e.2 < 0
  · rw [if_pos (by simpa using h), if_pos h]
    simp only [List.map_cons, List.sum_cons]
    ring
  · rw [if_neg (by simpa using h), if_neg h]
    simp

theorem amtC_cons (e : String × ℚ) (b : BalanceMap) :
    amtSum (creditorsOf (e :: b)) =
      (if tol < e.2 then e.2 else 0) + amtSum (creditorsOf b) := by
  unfold creditorsOf
  rw [List.filter_cons]
  by_cases h : tol < e.2
  · rw [if_pos (by simpa using h), if_pos h, List.map_cons, amtSum_cons]
  · rw [if_neg (by simpa using h), if_neg h]
    simp

theorem amtD_cons (e : String × ℚ) (b : BalanceMap) :
    amtSum (debtorsOf (e :: b)) =
      (if e.2 < -tol then -e.2 else 0) + amtSum (debtorsOf b) := by
  unfold debtorsOf
  rw [List.filter_cons]
  by_cases h : e.2 < -tol
  · rw [if_pos (by simpa using h), if_pos h, List.map_cons, amtSum_cons]
  · rw [if_neg (by simpa using h), if_neg h]
    simp

theorem lenC_cons (e : String × ℚ) (b : BalanceMap) :
    (creditorsOf (e :: b)).length =
      (if tol < e.2 then 1 else 0) + (creditorsOf b).length := by
  unfold creditorsOf
  rw [List.filter_cons]
  by_cases h : tol < e.2
  · rw [if_pos (by simpa using h), if_pos h]
    simp only [List.map_cons, List.length_cons, List.length_map]
    omega
  · rw [if_neg (by simpa using h), if_neg h]
    simp

theorem lenD_cons (e : String × ℚ) (b : BalanceMap) :
    (debtorsOf (e :: b)).length =
      (if e.2 < -tol then 1 else 0) + (debtorsOf b).length := by
  unfold debtorsOf
  rw [List.filter_cons]
  by_cases h : e.2 < -tol
  · rw [if_pos (by simpa using h), if_pos h]
    simp only [List.map_cons, List.length_cons, List.length_map]
    omega
  · rw [if_neg (by simpa using h), if_neg h]
    simp

theorem posSum_sub_amtC (b : BalanceMap) :
    0 ≤ posSum b - amtSum (creditorsOf b) ∧
      posSum b - amtSum (creditorsOf b) ≤ tol * (b.length : ℚ) := by
  induction b with
  | nil =>
    norm_num [posSum, creditorsOf, amtSum]
  | cons e b ih =>
    rw [posSum_cons, amtC_cons]
    have hlen : ((e :: b).length : ℚ) = (b.length : ℚ) + 1 := by
      push_cast [List.length_cons]
      ring
    rw [hlen]
    have ht := tol_pos
    by_cases h1 : tol < e.2
    · have h2 : 0 < e.2 := lt_trans ht h1
      rw [if_pos h1, if_pos h2]
      constructor
      · linarith [ih.1]
      · linarith [ih.2]
    · rw [if_neg h1]
      by_cases h2 : 0 < e.2
      · rw [if_pos h2]
        have he : e.2 ≤ tol := not_lt.1 h1
        constructor
        · linarith [ih.1]
        · linarith [ih.2]
      · rw [if_neg h2]
        constructor
        · linarith [ih.1]
        · linarith [ih.2]

theorem negSum_sub_amtD (b : BalanceMap) :
    0 ≤ negSum b - amtSum (debtorsOf b) ∧
      negSum b - amtSum (debtorsOf b) ≤ tol * (b.length : ℚ) := by
  induction b with
  | nil =>
    norm_num [negSum, debtorsOf, amtSum]
  | cons e b ih =>
    rw [negSum_cons, amtD_cons]
    have hlen : ((e :: b).length : ℚ) = (b.length : ℚ) + 1 := by
      push_cast [List.length_cons]
      ring
    rw [hlen]
    have ht := tol_pos
    by_cases h1 : e.2 < -tol
    · have h2 : e.2 < 0 := by linarith
      rw [if_pos h1, if_pos h2]
      constructor
      · linarith [ih.1]
      · linarith [ih.2]
    · rw [if_neg h1]
      by_cases h2 : e.2 < 0
      · rw [if_pos h2]
        have he : -tol ≤ e.2 := not_lt.1 h1
        constructor
        · linarith [ih.1]
        · linarith [ih.2]
      · rw [if_neg h2]
        constructor
        · linarith [ih.1]
        · linarith [ih.2]

theorem posSum_sub_negSum (b : BalanceMap) :
    posSum b - negSum b = sumB b := by
  induction b with
  | nil =>
    norm_num [posSum, negSum, sumB]
  | cons e b ih =>
    rw [posSum_cons, negSum_cons, sumB_cons]
    rcases lt_trichotomy e.2 0 with h | h | h
    · rw [if_neg (by linarith), if_pos h]
      linarith [ih]
    · rw [if_neg (by rw [h]; exact lt_irrefl 0), if_neg (by rw [h]; exact lt_irrefl 0), h]
      linarith [ih]
    · rw [if_pos h, if_neg (by linarith)]
      linarith [ih]

theorem lengths_le (b : BalanceMap) :
    (debtorsOf b).length + (creditorsOf b).length ≤ b.length := by
  induction b with
  | nil =>
    simp [debtorsOf, creditorsOf]
  | cons e b ih =>
    rw [lenD_cons, lenC_cons, List.length_cons]
    have ht := tol_pos
    by_cases h1 : e.2 < -tol
    · have h2 : ¬ tol < e.2 := by
        intro h3
        linarith
      rw [if_pos h1, if_neg h2]
      omega
    · by_cases h2 : tol < e.2
      · rw [if_neg h1, if_pos h2]
        omega
      · rw [if_neg h1, if_neg h2]
        omega

/-! Applying transfers to the balance map. -/

theorem getD_applyMove (b : BalanceMap) (m : Move) (k : String) :
    getD (applyMove b m) k = getD b k +
      (if k = m.fromId then m.amount else 0) +
      (if k = m.toId then -m.amount else 0) := by
  unfold applyMove
  rw [getD_updB, getD_updB]

theorem getD_applyMoves : ∀ (ms : List Move) (b : BalanceMap) (k : String),
    getD (applyMoves b ms) k = getD b k + paidBy ms k - paidTo ms k := by
  intro ms
  induction ms with
  | nil =>
    intro b k
    simp [applyMoves, paidBy, paidTo]
  | cons m ms ih =>
    intro b k
    show getD (applyMoves (applyMove b m) ms) k = _
    rw [ih, getD_applyMove, paidBy_cons, paidTo_cons]
    by_cases h1 : m.fromId = k <;> by_cases h2 : m.toId = k
    · rw [if_pos h1, if_pos h2, if_pos h1.symm, if_pos h2.symm]
      ring
    · rw [if_pos h1, if_neg h2, if_pos h1.symm, if_neg (Ne.symm h2)]
      ring
    · rw [if_neg h1, if_pos h2, if_neg (Ne.symm h1), if_pos h2.symm]
      ring
    · rw [if_neg h1, if_neg h2, if_neg (Ne.symm h1), if_neg (Ne.symm h2)]
      ring

theorem keysB_applyMove (b : BalanceMap) (m : Move)
    (h1 : m.fromId ∈ keysB b) (h2 : m.toId ∈ keysB b) :
    keysB (applyMove b m) = keysB b := by
  unfold applyMove
  rw [keysB_updB_of_mem _ _ _ (mem_keysB_updB_of_mem _ _ _ _ h2),
    keysB_updB_of_mem _ _ _ h1]

theorem keysB_applyMoves : ∀ (ms : List Move) (b : BalanceMap),
    (∀ m ∈ ms, m.fromId ∈ keysB b ∧ m.toId ∈ keysB b) →
    keysB (applyMoves b ms) = keysB b := by
  intro ms
  induction ms with
  | nil =>
    intro b _
    rfl
  | cons m ms ih =>
    intro b h
    have hm := h m (List.mem_cons_self m ms)
    have hk := keysB_applyMove b m hm.1 hm.2
    have h2 : ∀ x ∈ ms,
        x.fromId ∈ keysB (applyMove b m) ∧ x.toId ∈ keysB (applyMove b m) := by
      intro x hx
      rw [hk]
      exact h x (List.mem_cons_of_mem _ hx)
    show keysB (applyMoves (applyMove b m) ms) = keysB b
    rw [ih _ h2, hk]

theorem sortDesc_nonneg_d (b : BalanceMap) :
    ∀ e ∈ sortDesc (debtorsOf b), 0 ≤ e.amount := by
  intro e he
  exact le_of_lt (lt_trans tol_pos
    (debtorsOf_amount_gt b e ((sortDesc_mem _ e).1 he)))

theorem sortDesc_nonneg_c (b : BalanceMap) :
    ∀ e ∈ sortDesc (creditorsOf b), 0 ≤ e.amount := by
  intro e he
  exact le_of_lt (lt_trans tol_pos
    (creditorsOf_amount_gt b e ((sortDesc_mem _ e).1 he)))

/-- C4 (amended). The emitted total never exceeds the positive-balance total,
and on a zero-sum map it falls short of it by at most 0.005 per entry on
each side of the matching. -/
theorem settlements_conservation_bound (b : BalanceMap) (hz : sumB b = 0) :
    posSum b - (b.length : ℚ) / 100 ≤ sumMoves (settlements b) ∧
    sumMoves (settlements b) ≤ posSum b := by
  have hdn := sortDesc_nonneg_d b
  have hcn := sortDesc_nonneg_c b
  have hSdef : settlements b =
      matchF ((sortDesc (debtorsOf b)).length + (sortDesc (creditorsOf b)).length)
        (sortDesc (debtorsOf b)) (sortDesc (creditorsOf b)) := rfl
  have hC1 := posSum_sub_amtC b
  have hD1 := negSum_sub_amtD b
  have hPN := posSum_sub_negSum b
  have ht := tol_pos
  constructor
  · have hlow := matchF_sum_lower
      ((sortDesc (debtorsOf b)).length + (sortDesc (creditorsOf b)).length)
      (sortDesc (debtorsOf b)) (sortDesc (creditorsOf b)) hdn hcn le_rfl
    rw [← hSdef, sortDesc_amtSum, sortDesc_amtSum] at hlow
    have hcastlen : (((sortDesc (debtorsOf b)).length +
        (sortDesc (creditorsOf b)).length : Nat) : ℚ) ≤ (b.length : ℚ) := by
      rw [sortDesc_length, sortDesc_length]
      exact_mod_cast lengths_le b
    have hmin : posSum b - tol * (b.length : ℚ) ≤
        min (amtSum (debtorsOf b)) (amtSum (creditorsOf b)) := by
      apply le_min
      · linarith [hD1.2]
      · linarith [hC1.2]
    have htl : tol * (((sortDesc (debtorsOf b)).length +
        (sortDesc (creditorsOf b)).length : Nat) : ℚ) ≤ tol * (b.length : ℚ) :=
      mul_le_mul_of_nonneg_left hcastlen (le_of_lt ht)
    have h200 : tol * (b.length : ℚ) = (b.length : ℚ) / 200 := by
      rw [show tol = 1/200 from rfl]
      ring
    linarith [hlow, hmin, htl, h200]
  · have hup := matchF_sum_le_amtC
      ((sortDesc (debtorsOf b)).length + (sortDesc (creditorsOf b)).length)
      (sortDesc (debtorsOf b)) (sortDesc (creditorsOf b)) hcn
    rw [← hSdef, sortDesc_amtSum] at hup
    linarith [hC1.1]

def bW : BalanceMap := [("p", 1/2), ("q", -(1/2))]

/-- Witness for the amended C4 on a concrete two-entry zero-sum map. -/
theorem settlements_conservation_bound_witness :
    sumB bW = 0 ∧
    (posSum bW - (bW.length : ℚ) / 100 ≤ sumMoves (settlements bW) ∧
      sumMoves (settlements bW) ≤ posSum bW) :=
  ⟨by norm_num [bW, sumB], settlements_conservation_bound bW (by norm_num [bW, sumB])⟩

/-- A zero-sum balance map on which the greedy loop leaves a creditor with a
residual above the tolerance: two debts of 1 against credits of 0.998,
0.996 and 0.006. -/
def exB : BalanceMap :=
  [("D1", -1), ("D2", -1), ("C1", 499/500), ("C2", 249/250), ("C3", 3/500)]

theorem exB_settlements :
    settlements exB = [⟨"D1", "C1", 499/500⟩, ⟨"D2", "C2", 249/250⟩] := by
  norm_num [settlements, exB, matchLoop, matchF, sortDesc, insertDesc,
    debtorsOf, creditorsOf, tol, min_def]

/-- Counterexample to C4 as stated: on exB (which sums to zero) the emitted
transfers total 1.994 while the positive balances total 2. -/
theorem settlements_conservation_cex :
    sumMoves (settlements exB) ≠ posSum exB := by
  rw [exB_settlements]
  norm_num [sumMoves, posSum, exB, List.filter_cons, List.filter_nil]

/-- Counterexample to C3 as stated: after applying every emitted transfer on
exB, the creditor C3 still holds 0.006, outside the 0.005 band. -/
theorem settlements_residual_cex :
    ¬ (∀ e ∈ applyMoves exB (settlements exB),
        -(1/200 : ℚ) ≤ e.2 ∧ e.2 ≤ 1/200) := by
  intro h
  have h2 : applyMoves exB (settlements exB) =
      [("D1", -(1/500)), ("D2", -(1/250)), ("C1", 0), ("C2", 0), ("C3", 3/500)] := by
    rw [exB_settlements]
    simp only [applyMoves, applyMove, List.foldl_cons, List.foldl_nil]
    norm_num [updB, setB, getD, lookupB, exB]
    simp +decide
    norm_num
  have h3 := h ("C3", 3/500) (by rw [h2]; simp)
  norm_num at h3

/-- C3 (amended). On a zero-sum balance map with distinct keys, applying
every emitted transfer leaves every entry within 0.005 times twice the
number of entries of zero, that is within length over 100; the fixed band
0.005 of the original claim fails (settlements_residual_cex). -/
theorem settlements_residual_bound (b : BalanceMap)
    (hnd : (keysB b).Nodup) (hz : sumB b = 0) :
    ∀ e ∈ applyMoves b (settlements b),
      -((b.length : ℚ) / 100) ≤ e.2 ∧ e.2 ≤ (b.length : ℚ) / 100 := by
  have hSdef : settlements b =
      matchF ((sortDesc (debtorsOf b)).length + (sortDesc (creditorsOf b)).length)
        (sortDesc (debtorsOf b)) (sortDesc (creditorsOf b)) := rfl
  have hdn := sortDesc_nonneg_d b
  have hcn := sortDesc_nonneg_c b
  have ht := tol_pos
  have htv : tol = 1/200 := rfl
  have hidD : ∀ i ∈ (sortDesc (debtorsOf b)).map Entry.id,
      ∃ x ∈ b, x.1 = i ∧ x.2 < -tol := by
    intro i hi
    have hi2 : i ∈ (debtorsOf b).map Entry.id :=
      (sortDesc_ids_perm (debtorsOf b)).mem_iff.1 hi
    rw [debtor_ids_eq] at hi2
    rcases List.mem_map.1 hi2 with ⟨x, hx, hxi⟩
    rcases List.mem_filter.1 hx with ⟨hxb, hcond⟩
    exact ⟨x, hxb, hxi, by simpa using hcond⟩
  have hidC : ∀ i ∈ (sortDesc (creditorsOf b)).map Entry.id,
      ∃ x ∈ b, x.1 = i ∧ tol < x.2 := by
    intro i hi
    have hi2 : i ∈ (creditorsOf b).map Entry.id :=
      (sortDesc_ids_perm (creditorsOf b)).mem_iff.1 hi
    rw [creditor_ids_eq] at hi2
    rcases List.mem_map.1 hi2 with ⟨x, hx, hxi⟩
    rcases List.mem_filter.1 hx with ⟨hxb, hcond⟩
    exact ⟨x, hxb, hxi, by simpa using hcond⟩
  have hsubD : ∀ i ∈ (sortDesc (debtorsOf b)).map Entry.id, i ∈ keysB b := by
    intro i hi
    rcases hidD i hi with ⟨x, hxb, hxi, _⟩
    exact hxi ▸ List.mem_map_of_mem Prod.fst hxb
  have hsubC : ∀ i ∈ (sortDesc (creditorsOf b)).map Entry.id, i ∈ keysB b := by
    intro i hi
    rcases hidC i hi with ⟨x, hxb, hxi, _⟩
    exact hxi ▸ List.mem_map_of_mem Prod.fst hxb
  have hmoveids : ∀ m ∈ settlements b,
      m.fromId ∈ keysB b ∧ m.toId ∈ keysB b := by
    intro m hm
    rw [hSdef] at hm
    have h2 := matchF_mem_ids _ _ _ m hm
    exact ⟨hsubD _ h2.1, hsubC _ h2.2⟩
  have hkeys : keysB (applyMoves b (settlements b)) = keysB b :=
    keysB_applyMoves (settlements b) b hmoveids
  have hndD : ((sortDesc (debtorsOf b)).map Entry.id).Nodup := by
    apply (sortDesc_ids_perm (debtorsOf b)).nodup_iff.2
    rw [debtor_ids_eq]
    exact ((List.filter_sublist b).map Prod.fst).nodup hnd
  have hndC : ((sortDesc (creditorsOf b)).map Entry.id).Nodup := by
    apply (sortDesc_ids_perm (creditorsOf b)).nodup_iff.2
    rw [creditor_ids_eq]
    exact ((List.filter_sublist b).map Prod.fst).nodup hnd
  have huniq : ∀ i w, (i, w) ∈ b → w = getD b i := by
    intro i w hw
    exact (getD_eq_of_mem b i w hnd hw).symm
  have hC1 := posSum_sub_amtC b
  have hD1 := negSum_sub_amtD b
  have hPN := posSum_sub_negSum b
  have hlow := matchF_sum_lower
    ((sortDesc (debtorsOf b)).length + (sortDesc (creditorsOf b)).length)
    (sortDesc (debtorsOf b)) (sortDesc (creditorsOf b)) hdn hcn le_rfl
  rw [← hSdef, sortDesc_amtSum, sortDesc_amtSum] at hlow
  have hcastlen : (((sortDesc (debtorsOf b)).length +
      (sortDesc (creditorsOf b)).length : Nat) : ℚ) ≤ (b.length : ℚ) := by
    rw [sortDesc_length, sortDesc_length]
    exact_mod_cast lengths_le b
  have htl : tol * (((sortDesc (debtorsOf b)).length +
      (sortDesc (creditorsOf b)).length : Nat) : ℚ) ≤ tol * (b.length : ℚ) :=
    mul_le_mul_of_nonneg_left hcastlen (le_of_lt ht)
  have h200 : tol * (b.length : ℚ) = (b.length : ℚ) / 200 := by
    rw [htv]
    ring
  have hlen0 : (0:ℚ) ≤ (b.length : ℚ) := by positivity
  have hgapC : amtSum (creditorsOf b) - sumMoves (settlements b) ≤
      (b.length : ℚ) / 100 := by
    have hCD : amtSum (creditorsOf b) -
        min (amtSum (debtorsOf b)) (amtSum (creditorsOf b)) ≤
        tol * (b.length : ℚ) := by
      rcases le_total (amtSum (debtorsOf b)) (amtSum (creditorsOf b)) with h | h
      · rw [min_eq_left h]
        linarith [hC1.1, hD1.2]
      · rw [min_eq_right h]
        linarith [mul_nonneg (le_of_lt ht) hlen0]
    linarith [hlow, htl, h200, hCD]
  have hgapD : amtSum (debtorsOf b) - sumMoves (settlements b) ≤
      (b.length : ℚ) / 100 := by
    have hDD : amtSum (debtorsOf b) -
        min (amtSum (debtorsOf b)) (amtSum (creditorsOf b)) ≤
        tol * (b.length : ℚ) := by
      rcases le_total (amtSum (debtorsOf b)) (amtSum (creditorsOf b)) with h | h
      · rw [min_eq_left h]
        linarith [mul_nonneg (le_of_lt ht) hlen0]
      · rw [min_eq_right h]
        linarith [hD1.1, hC1.2]
    linarith [hlow, htl, h200, hDD]
  intro e he
  have hpk : e.1 ∈ keysB b := by
    rw [← hkeys]
    exact List.mem_map_of_mem Prod.fst he
  have hlen1 : 1 ≤ b.length := by
    cases b with
    | nil => simp [keysB] at hpk
    | cons x b2 =>
      simp only [List.length_cons]
      omega
  have hlenq : (1:ℚ) ≤ (b.length : ℚ) := by exact_mod_cast hlen1
  have hndr : (keysB (applyMoves b (settlements b))).Nodup := by
    rw [hkeys]
    exact hnd
  have hev : getD (applyMoves b (settlements b)) e.1 = e.2 :=
    getD_eq_of_mem _ e.1 e.2 hndr (mem_pair _ e he)
  have hgd := getD_applyMoves (settlements b) b e.1
  have hvb : (e.1, getD b e.1) ∈ b := mem_of_mem_keysB b e.1 hpk
  have he2 : e.2 = getD b e.1 + paidBy (settlements b) e.1 -
      paidTo (settlements b) e.1 := by
    rw [← hev, hgd]
  by_cases hvc : tol < getD b e.1
  · have hecs : (⟨e.1, getD b e.1⟩ : Entry) ∈ sortDesc (creditorsOf b) := by
      rw [sortDesc_mem]
      exact List.mem_map.2 ⟨(e.1, getD b e.1),
        List.mem_filter.2 ⟨hvb, by simpa using hvc⟩, rfl⟩
    have hnotD : e.1 ∉ (sortDesc (debtorsOf b)).map Entry.id := by
      intro hin
      rcases hidD e.1 hin with ⟨x, hxb, hxi, hxlt⟩
      have hxv : x.2 = getD b e.1 := huniq e.1 x.2 (hxi ▸ mem_pair b x hxb)
      rw [hxv] at hxlt
      linarith
    have hpb : paidBy (settlements b) e.1 = 0 := by
      apply paidBy_eq_zero
      intro m hm hq
      apply hnotD
      rw [← hq]
      rw [hSdef] at hm
      exact (matchF_mem_ids _ _ _ m hm).1
    have hpt_le : paidTo (settlements b) e.1 ≤ getD b e.1 := by
      have h5 := matchF_paidTo_le
        ((sortDesc (debtorsOf b)).length + (sortDesc (creditorsOf b)).length)
        (sortDesc (debtorsOf b)) (sortDesc (creditorsOf b)) hndC hcn
        ⟨e.1, getD b e.1⟩ hecs
      rw [← hSdef] at h5
      simpa using h5
    have hleft : getD b e.1 - paidTo (settlements b) e.1 ≤
        amtSum (creditorsOf b) - sumMoves (settlements b) := by
      have hlist : ((sortDesc (creditorsOf b)).map
          (fun x => x.amount - paidTo (settlements b) x.id)).sum =
          amtSum (sortDesc (creditorsOf b)) - sumMoves (settlements b) := by
        rw [sum_map_sub]
        have hsp := sum_paidTo_eq (settlements b) (sortDesc (creditorsOf b)) hndC
          (fun m hm => by
            rw [hSdef] at hm
            exact (matchF_mem_ids _ _ _ m hm).2)
        rw [hsp]
        rfl
      have hnn2 : ∀ y ∈ (sortDesc (creditorsOf b)).map
          (fun x => x.amount - paidTo (settlements b) x.id), 0 ≤ y := by
        intro y hy
        rcases List.mem_map.1 hy with ⟨x, hx, rfl⟩
        have h6 := matchF_paidTo_le
          ((sortDesc (debtorsOf b)).length + (sortDesc (creditorsOf b)).length)
          (sortDesc (debtorsOf b)) (sortDesc (creditorsOf b)) hndC hcn x hx
        rw [← hSdef] at h6
        linarith
      have hmem2 := List.mem_map_of_mem
        (fun x => x.amount - paidTo (settlements b) x.id) hecs
      have h7 := List.single_le_sum hnn2 _ hmem2
      rw [hlist] at h7
      simpa [sortDesc_amtSum] using h7
    rw [he2, hpb]
    constructor
    · linarith [hpt_le]
    · linarith [hleft, hgapC]
  · by_cases hvd : getD b e.1 < -tol
    · have hecs : (⟨e.1, -(getD b e.1)⟩ : Entry) ∈ sortDesc (debtorsOf b) := by
        rw [sortDesc_mem]
        exact List.mem_map.2 ⟨(e.1, getD b e.1),
          List.mem_filter.2 ⟨hvb, by simpa using hvd⟩, rfl⟩
      have hnotC : e.1 ∉ (sortDesc (creditorsOf b)).map Entry.id := by
        intro hin
        rcases hidC e.1 hin with ⟨x, hxb, hxi, hxlt⟩
        have hxv : x.2 = getD b e.1 := huniq e.1 x.2 (hxi ▸ mem_pair b x hxb)
        rw [hxv] at hxlt
        linarith
      have hpt : paidTo (settlements b) e.1 = 0 := by
        apply paidTo_eq_zero
        intro m hm hq
        apply hnotC
        rw [← hq]
        rw [hSdef] at hm
        exact (matchF_mem_ids _ _ _ m hm).2
      have hpb_le : paidBy (settlements b) e.1 ≤ -(getD b e.1) := by
        have h5 := matchF_paidBy_le
          ((sortDesc (debtorsOf b)).length + (sortDesc (creditorsOf b)).length)
          (sortDesc (debtorsOf b)) (sortDesc (creditorsOf b)) hndD hdn
          ⟨e.1, -(getD b e.1)⟩ hecs
        rw [← hSdef] at h5
        simpa using h5
      have hleft : -(getD b e.1) - paidBy (settlements b) e.1 ≤
          amtSum (debtorsOf b) - sumMoves (settlements b) := by
        have hlist : ((sortDesc (debtorsOf b)).map
            (fun x => x.amount - paidBy (settlements b) x.id)).sum =
            amtSum (sortDesc (debtorsOf b)) - sumMoves (settlements b) := by
          rw [sum_map_sub]
          have hsp := sum_paidBy_eq (settlements b) (sortDesc (debtorsOf b)) hndD
            (fun m hm => by
              rw [hSdef] at hm
              exact (matchF_mem_ids _ _ _ m hm).1)
          rw [hsp]
          rfl
        have hnn2 : ∀ y ∈ (sortDesc (debtorsOf b)).map
            (fun x => x.amount - paidBy (settlements b) x.id), 0 ≤ y := by
          intro y hy
          rcases List.mem_map.1 hy with ⟨x, hx, rfl⟩
          have h6 := matchF_paidBy_le
            ((sortDesc (debtorsOf b)).length + (sortDesc (creditorsOf b)).length)
            (sortDesc (debtorsOf b)) (sortDesc (creditorsOf b)) hndD hdn x hx
          rw [← hSdef] at h6
          linarith
        have hmem2 := List.mem_map_of_mem
          (fun x => x.amount - paidBy (settlements b) x.id) hecs
        have h7 := List.single_le_sum hnn2 _ hmem2
        rw [hlist] at h7
        simpa [sortDesc_amtSum] using h7
      rw [he2, hpt]
      constructor
      · linarith [hleft, hgapD]
      · linarith [hpb_le]
    · have hnotD : e.1 ∉ (sortDesc (debtorsOf b)).map Entry.id := by
        intro hin
        rcases hidD e.1 hin with ⟨x, hxb, hxi, hxlt⟩
        have hxv : x.2 = getD b e.1 := huniq e.1 x.2 (hxi ▸ mem_pair b x hxb)
        rw [hxv] at hxlt
        exact hvd hxlt
      have hnotC : e.1 ∉ (sortDesc (creditorsOf b)).map Entry.id := by
        intro hin
        rcases hidC e.1 hin with ⟨x, hxb, hxi, hxlt⟩
        have hxv : x.2 = getD b e.1 := huniq e.1 x.2 (hxi ▸ mem_pair b x hxb)
        rw [hxv] at hxlt
        exact hvc hxlt
      have hpb : paidBy (settlements b) e.1 = 0 := by
        apply paidBy_eq_zero
        intro m hm hq
        apply hnotD
        rw [← hq]
        rw [hSdef] at hm
        exact (matchF_mem_ids _ _ _ m hm).1
      have hpt : paidTo (settlements b) e.1 = 0 := by
        apply paidTo_eq_zero
        intro m hm hq
        apply hnotC
        rw [← hq]
        rw [hSdef] at hm
        exact (matchF_mem_ids _ _ _ m hm).2
      rw [he2, hpb, hpt]
      have h8 : -tol ≤ getD b e.1 := not_lt.1 hvd
      have h9 : getD b e.1 ≤ tol := not_lt.1 hvc
      constructor
      · rw [htv] at h8
        linarith
      · rw [htv] at h9
        linarith

def bW2 : BalanceMap := [("r", 3/4), ("s", -(3/4))]

/-- Witness for the amended C3 on a concrete two-entry zero-sum map. -/
theorem settlements_residual_bound_witness :
    (keysB bW2).Nodup ∧ sumB bW2 = 0 ∧
    (∀ e ∈ applyMoves bW2 (settlements bW2),
      -((bW2.length : ℚ) / 100) ≤ e.2 ∧ e.2 ≤ (bW2.length : ℚ) / 100) :=
  ⟨by simp [bW2, keysB], by norm_num [bW2, sumB],
    settlements_residual_bound bW2 (by simp [bW2, keysB]) (by norm_num [bW2, sumB])⟩

end SplitGastos
